import Mathlib

/-!
# Grinding attack harness (`grindingAttack.cpp`)

A shallow embedding of the coordination harness in
`PoS_Attacks/network-real/src/grindingAttack.cpp` and proofs about it.

Conventions of the embedding.

* `std::string` is `String`; `std::vector<std::string>` is `List String`.
* Every call of `sendMessageToIpAddress` is recorded as a `Msg` (command and target); the
  replies of the nodes, already parsed where the source parses them as JSON, are inputs of
  the embedded functions.
* `unsigned int` is a `Nat` reduced modulo `2 ^ 32`; `size_t` is 64 bits wide, so sums of two
  32-bit values do not wrap.
* `std::sort` and `std::next_permutation` are the standard algorithms on the range.
* `sha256` is SHA-256 (FIPS 180-4) printed as 64 lowercase hexadecimal characters.
-/

namespace GrindingAttack

/-! ## Definitions -/

/-! ### The digest function -/

section Digest

/-- Trial division: whether `n` is a prime number. -/
def isPrime (n : Nat) : Bool :=
  decide (2 ≤ n) && (List.range n).all fun d => decide (d < 2) || decide (n % d ≠ 0)

/-- Bisection for the integer cube root: the largest `c` among `r + j` with `j < 2 ^ k` and
`c ^ 3 ≤ n`, given `r ^ 3 ≤ n`. -/
def cubeRootFrom : Nat → Nat → Nat → Nat
  | 0, _, r => r
  | k + 1, n, r => if (r + 2 ^ k) ^ 3 ≤ n then cubeRootFrom k n (r + 2 ^ k) else cubeRootFrom k n r

/-- Round constants of SHA-256: the first 32 bits of the fractional parts of the cube roots of
the first 64 prime numbers (FIPS 180-4, section 4.2.2), from `0x428a2f98` to `0xc67178f2`. -/
def K256 : List Nat :=
  ((List.range 312).filter isPrime).map fun p => cubeRootFrom 35 (p * 2 ^ 96) 0 % 2 ^ 32

/-- Rotation of a 32-bit word to the right. -/
def rotr (x n : Nat) : Nat := ((x >>> n) ||| (x <<< (32 - n))) % 2 ^ 32

/-- The eight working words of SHA-256. -/
structure HashState where
  a : Nat
  b : Nat
  c : Nat
  d : Nat
  e : Nat
  f : Nat
  g : Nat
  h : Nat

/-- Initial hash value of SHA-256. -/
def initState : HashState :=
  ⟨0x6a09e667, 0xbb67ae85, 0x3c6ef372, 0xa54ff53a, 0x510e527f, 0x9b05688c, 0x1f83d9ab, 0x5be0cd19⟩

/-- One of the 64 rounds, for the round constant `kw.1` and the schedule word `kw.2`. -/
def sha256Round (s : HashState) (kw : Nat × Nat) : HashState :=
  let s1 := rotr s.e 6 ^^^ rotr s.e 11 ^^^ rotr s.e 25
  let ch := (s.e &&& s.f) ^^^ ((s.e ^^^ 0xffffffff) &&& s.g)
  let t1 := (s.h + s1 + ch + kw.1 + kw.2) % 2 ^ 32
  let s0 := rotr s.a 2 ^^^ rotr s.a 13 ^^^ rotr s.a 22
  let maj := (s.a &&& s.b) ^^^ (s.a &&& s.c) ^^^ (s.b &&& s.c)
  let t2 := (s0 + maj) % 2 ^ 32
  ⟨(t1 + t2) % 2 ^ 32, s.a, s.b, s.c, (s.d + t1) % 2 ^ 32, s.e, s.f, s.g⟩

/-- Message schedule: appends `n` further words to `w`, which is kept latest word first. -/
def extendSchedule : Nat → List Nat → List Nat
  | 0, w => w
  | n + 1, w =>
    let w2 := w.getD 1 0
    let w7 := w.getD 6 0
    let w15 := w.getD 14 0
    let w16 := w.getD 15 0
    let s0 := rotr w15 7 ^^^ rotr w15 18 ^^^ (w15 >>> 3)
    let s1 := rotr w2 17 ^^^ rotr w2 19 ^^^ (w2 >>> 10)
    extendSchedule n (((w16 + s0 + w7 + s1) % 2 ^ 32) :: w)

/-- Big-endian 32-bit words of a byte sequence. -/
def wordsOfBytes : List Nat → List Nat
  | b0 :: b1 :: b2 :: b3 :: rest =>
    (b0 * 2 ^ 24 + b1 * 2 ^ 16 + b2 * 2 ^ 8 + b3) :: wordsOfBytes rest
  | _ => []

/-- Compression of one 16-word block into the hash state. -/
def compress (s : HashState) (block : List Nat) : HashState :=
  let w := (extendSchedule 48 block.reverse).reverse
  let r := (K256.zip w).foldl sha256Round s
  ⟨(s.a + r.a) % 2 ^ 32, (s.b + r.b) % 2 ^ 32, (s.c + r.c) % 2 ^ 32, (s.d + r.d) % 2 ^ 32,
   (s.e + r.e) % 2 ^ 32, (s.f + r.f) % 2 ^ 32, (s.g + r.g) % 2 ^ 32, (s.h + r.h) % 2 ^ 32⟩

/-- Compression of the first `n` blocks of a word sequence. -/
def compressBlocks : Nat → List Nat → HashState → HashState
  | 0, _, s => s
  | n + 1, ws, s => compressBlocks n (ws.drop 16) (compress s (ws.take 16))

/-- Padding of SHA-256: the bit `1`, zeros, and the bit length as a 64-bit big-endian number,
up to a multiple of 64 bytes. -/
def padMessage (bytes : List Nat) : List Nat :=
  bytes ++ [0x80] ++ List.replicate ((55 + 64 - bytes.length % 64) % 64) 0 ++
    (List.range 8).map fun i => ((bytes.length * 8) >>> (8 * (7 - i))) % 256

/-- Lowercase hexadecimal digit of a value below 16. -/
def hexChar (n : Nat) : Char := "0123456789abcdef".data.getD n '0'

/-- The four bits of the 32-bit word `w` at hexadecimal position `i` (0 is the leading one). -/
def hexNibble (w i : Nat) : Char := hexChar ((w >>> (4 * (7 - i))) % 16)

/-- A 32-bit word printed as eight hexadecimal digits
(`std::setfill('0') << std::setw(2) << std::hex` on each of its four bytes). -/
def hexWord (w : Nat) : List Char :=
  [hexNibble w 0, hexNibble w 1, hexNibble w 2, hexNibble w 3,
   hexNibble w 4, hexNibble w 5, hexNibble w 6, hexNibble w 7]

/-- The bytes of a `std::string`. -/
def bytesOf (s : String) : List Nat :=
  s.data.flatMap fun c => (String.utf8EncodeChar c).map UInt8.toNat

/-- The function `sha256`: hexadecimal string of the SHA-256 digest of the given string. -/
def sha256 (stringToHash : String) : String :=
  let p := padMessage (bytesOf stringToHash)
  let r := compressBlocks (p.length / 64) (wordsOfBytes p) initState
  ⟨hexWord r.a ++ hexWord r.b ++ hexWord r.c ++ hexWord r.d ++
   hexWord r.e ++ hexWord r.f ++ hexWord r.g ++ hexWord r.h⟩

end Digest

/-! ### Reading a hexadecimal prefix with `sscanf` -/

section Scan

/-- Value of a hexadecimal digit, `none` for any other character. -/
def hexDigitValue (c : Char) : Option Nat :=
  if 48 ≤ c.toNat ∧ c.toNat ≤ 57 then some (c.toNat - 48)
  else if 97 ≤ c.toNat ∧ c.toNat ≤ 102 then some (c.toNat - 87)
  else if 65 ≤ c.toNat ∧ c.toNat ≤ 70 then some (c.toNat - 55)
  else none

/-- White space as skipped by `sscanf` before a conversion (`isspace` of the C locale). -/
def isSpace (c : Char) : Bool := c.toNat = 32 || (9 ≤ c.toNat && c.toNat ≤ 13)

/-- Value of the longest run of hexadecimal digits at the start of the input, continuing from
`acc`; the flag tells whether the number has a digit. -/
def readHexDigits : List Char → Nat → Bool → Nat × Bool
  | [], acc, seen => (acc, seen)
  | c :: cs, acc, seen =>
    match hexDigitValue c with
    | some d => readHexDigits cs (16 * acc + d) true
    | none => (acc, seen)

/-- The input after an optional `0x` or `0X`, and whether the leading `0` was consumed with
it (that `0` counts as a digit of the number). -/
def skipHexMarker : List Char → List Char × Bool
  | c0 :: c1 :: rest =>
    if c0.toNat = 48 ∧ (c1.toNat = 120 ∨ c1.toNat = 88) then (rest, true) else (c0 :: c1 :: rest, false)
  | cs => (cs, false)

/-- The call `sscanf(str, "%x", &x)` as carried out by glibc where `unsigned long` has 64
bits: white space is skipped, a sign and a `0x` are accepted, the digits are read as by
`strtoul` and the value is stored into the 32-bit `x`. `none` when the input has no number, in
which case `x` is not written. -/
def sscanfHex (str : List Char) : Option Nat :=
  let s1 := str.dropWhile isSpace
  let negative : Bool := s1.head? = some (Char.ofNat 45)
  let s2 := if s1.head? = some (Char.ofNat 45) ∨ s1.head? = some (Char.ofNat 43) then s1.tail else s1
  let s3 := skipHexMarker s2
  let r := readHexDigits s3.1 0 s3.2
  if r.2 then
    let u := if r.1 < 2 ^ 64 then (if negative then (2 ^ 64 - r.1) % 2 ^ 64 else r.1) else 2 ^ 64 - 1
    some (u % 2 ^ 32)
  else none

/-- The statement `sscanf(s.substr(0, 16).c_str(), "%x", &x)`: the new content of `x`, which is
the old content when nothing was converted. -/
def scanInto (s : String) (x : Nat) : Nat :=
  (sscanfHex (s.data.take 16)).getD x

/-- The number `grind` derives from a hexadecimal string such as an address or a block hash
(0 where the string does not start with a number). -/
def hexPrefix (s : String) : Nat := scanInto s 0

end Scan

/-! ### `std::next_permutation` and the permutation loop -/

section Permutations

variable {α : Type} [LinearOrder α]

/-- Backward scan of `std::next_permutation`. `rev` is the part of the range not yet scanned,
in reverse order; `suf` is the scanned tail in range order. The scan stops at the first element
(from the back) that is smaller than its right neighbour and returns the reversed prefix before
it, the element, and the tail after it. -/
def findPivot : List α → List α → Option (List α × α × List α)
  | [], _ => none
  | a :: rev, [] => findPivot rev [a]
  | a :: rev, s :: suf =>
    if a < s then some (rev, a, s :: suf) else findPivot rev (a :: s :: suf)

/-- Second scan of `std::next_permutation`, fused with the final `std::reverse` of the tail: the
argument is the tail read from the back; its first element greater than the pivot `a` takes the
place of the pivot and `a` takes its place. -/
def swapPivot (a : α) : List α → α × List α
  | [] => (a, [])
  | b :: rs => if a < b then (b, a :: rs) else ((swapPivot a rs).1, b :: (swapPivot a rs).2)

/-- The range after `std::next_permutation` and the value it returns: the next arrangement and
`true`, or, when the range is the last arrangement, the reversed range and `false`. -/
def nextPermutation (l : List α) : List α × Bool :=
  match findPivot l.reverse [] with
  | none => (l.reverse, false)
  | some (rev, a, suf) =>
    (rev.reverse ++ (swapPivot a suf.reverse).1 :: (swapPivot a suf.reverse).2, true)

/-- Outcome of the permutation loop: the orderings tested, in the order they were tested, the
content of the range when the loop is left, and whether a tested ordering passed. -/
structure LoopResult (α : Type) where
  tested : List (List α)
  txids : List α
  successfulGrind : Bool

/-- The loop `do { if (test) { ...; break; } } while (std::next_permutation(...))` for a test
that depends on the ordering only. `none` when the iteration budget is used up. -/
def permLoop (test : List α → Bool) : Nat → List α → Option (LoopResult α)
  | 0, _ => none
  | fuel + 1, txids =>
    if test txids then some ⟨[txids], txids, true⟩
    else
      match nextPermutation txids with
      | (next, true) =>
        (permLoop test fuel next).map fun r => ⟨txids :: r.tested, r.txids, r.successfulGrind⟩
      | (next, false) => some ⟨[txids], next, false⟩

/-- Number of distinct arrangements of `l` that come after `l` in lexicographic order. -/
def arrangementsAbove (l : List α) : Nat :=
  (l.permutations.toFinset.filter fun p => List.Lex (· < ·) l p).card

end Permutations

/-! ### Messages, block hashes and the grinding search -/

section Grind

/-- One call of `sendMessageToIpAddress`: the command and the node it is sent to (the port is
the same for every call). -/
structure Msg where
  message : String
  ipAddress : String
deriving DecidableEq, Repr

/-- A block as printed by `printBlockchain`. -/
structure Block where
  prevBlockHash : String
  transactions : List String
deriving DecidableEq, Repr

/-- The function `stopServers`: the commands sent. -/
def stopServers (ipAddresses : List String) : List Msg :=
  ipAddresses.map fun ipAddress => ⟨"stop", ipAddress⟩

/-- The function `getBlockHash`: hash of the block from the hash of the previous block and the
transactions. -/
def getBlockHash (prevBlockHash : String) (transactions : List String) : String :=
  let transactionHash := sha256 (transactions.foldl (fun oss t => oss ++ t) "")
  sha256 (prevBlockHash ++ transactionHash)

/-- The command built in `grind` from the content of `txids`. -/
def proposeBlockCommand (txids : List String) : String :=
  "proposeBlock \x7b" ++ " ".intercalate txids ++ "\x7d"

/-- What `grind` reads from the attacker's node and from its environment. -/
structure GrindInput where
  /-- The `address` fields of the reply to `listStakepool`. -/
  stakepool : List String
  /-- The `address` fields of the reply to `listOldStakepool`. -/
  oldStakepool : List String
  /-- The reply to `printBlockchain`. -/
  blockchain : List Block
  /-- The `txid` fields of the reply to `listMempool`. -/
  mempool : List String
  /-- The reply of node 0 to `loadCoinbaseTransaction`. -/
  coinbaseTxid : String
  /-- Seconds since the epoch when the coinbase transaction is created. -/
  timeNow : Nat
  /-- The indeterminate content of the variable `x` before the first `sscanf`. -/
  x0 : Nat

/-- What `grind` does: the commands sent, the value of `creator` after the accumulation loop,
the orderings tried by the permutation loop, the final content of `txids` and the flag
`successfulGrind`. -/
structure GrindResult where
  sent : List Msg
  creator : Nat
  tested : List (List String)
  txids : List String
  successfulGrind : Bool

/-- The accumulation loop over the old stake pool: the pair of `creator` and `x`. -/
def creatorLoop (size : Nat) : List String → Nat × Nat → Nat × Nat
  | [], cx => cx
  | address :: rest, cx =>
    let x := scanInto address cx.2
    creatorLoop size rest ((cx.1 + x % size) % 2 ^ 32, x)

/-- The permutation loop of `grind`; `x` is the content of the variable `x` on entry and
`size` the size of the stake pool. `none` when the iteration budget is used up. -/
def grindLoop (lastBlockHash : String) (creator size searchedIndex : Nat) :
    Nat → Nat → List String → Option (LoopResult String)
  | 0, _, _ => none
  | fuel + 1, x, txids =>
    let x := scanInto (getBlockHash lastBlockHash txids) x
    if (creator + x % size) % size = searchedIndex then some ⟨[txids], txids, true⟩
    else
      match nextPermutation txids with
      | (next, true) =>
        (grindLoop lastBlockHash creator size searchedIndex fuel x next).map
          fun r => ⟨txids :: r.tested, r.txids, r.successfulGrind⟩
      | (next, false) => some ⟨[txids], next, false⟩

/-- The candidate transaction ids of `grind`: the new coinbase id followed by the mempool. -/
def candidates (inp : GrindInput) : List String := inp.coinbaseTxid :: inp.mempool

/-- The function `grind`. The result is `none` where the source has no defined behaviour: an
empty fleet, a stake pool without `selectedAddress`, an empty blockchain. The permutation loop
is run with a budget of `txids.size()!` iterations. -/
def grind (ipAddresses : List String) (selectedAddress : String) (inp : GrindInput) :
    Option GrindResult :=
  match ipAddresses.head?, inp.blockchain.getLast? with
  | some ip0, some lastBlock =>
    if selectedAddress ∈ inp.stakepool then
      let searchedIndex := inp.stakepool.indexOf selectedAddress
      let lastBlockHash := getBlockHash lastBlock.prevBlockHash lastBlock.transactions
      let commandLoad := "loadCoinbaseTransaction " ++ selectedAddress ++ " " ++ toString inp.timeNow
      let txids := (candidates inp).insertionSort (· ≤ ·)
      let cx := creatorLoop inp.stakepool.length inp.oldStakepool (0, inp.x0)
      (grindLoop lastBlockHash cx.1 inp.stakepool.length searchedIndex
          txids.length.factorial cx.2 txids).map fun r =>
        { sent :=
            [⟨"listStakepool", ip0⟩, ⟨"listOldStakepool", ip0⟩, ⟨"printBlockchain", ip0⟩,
             ⟨"listMempool", ip0⟩, ⟨commandLoad, ip0⟩] ++
            (ipAddresses.drop 1).map (fun ipAddress => ⟨commandLoad, ipAddress⟩) ++
            ipAddresses.map (fun ipAddress => ⟨proposeBlockCommand r.txids, ipAddress⟩)
          creator := cx.1
          tested := r.tested
          txids := r.txids
          successfulGrind := r.successfulGrind }
    else none
  | _, _ => none

/-- Whether a command is a `proposeBlock` command. -/
def isProposeBlock (m : Msg) : Bool := "proposeBlock ".data.isPrefixOf m.message.data

/-- The test applied by `grind` to each ordering, as a function of the ordering. -/
def matchTest (lastBlockHash : String) (creator size searchedIndex : Nat)
    (txids : List String) : Bool :=
  (creator + hexPrefix (getBlockHash lastBlockHash txids) % size) % size = searchedIndex

/-- A fleet of three nodes, the attacker first. -/
def exampleFleet : List String := ["10.0.0.1", "10.0.0.2", "10.0.0.3"]

/-- Replies of the attacker's node with one pending transaction: with `"bb"` as the attacker no
ordering of the two candidates passes the test. -/
def exampleInput : GrindInput :=
  { stakepool := ["aa", "bb", "cc"]
    oldStakepool := ["aa", "bb", "cc"]
    blockchain := [⟨"00", ["t0"]⟩]
    mempool := ["m1"]
    coinbaseTxid := "cb"
    timeNow := 1700000000
    x0 := 0 }

/-- Replies of the attacker's node with two pending transactions: with `"cc"` as the attacker
the second ordering tested passes. -/
def exampleInput2 : GrindInput :=
  { exampleInput with mempool := ["m1", "m2"] }

end Grind

/-! ### Propagation helpers and the round driver -/

section Driver

/-- An entry of the reply to `listUnspentLinkedToMe`. -/
structure Utxo where
  txid : String
  address : String
deriving DecidableEq, Repr

/-- The reply to `printTransaction`. -/
structure Transaction where
  address : String
  timestamp : String
  txid : String
deriving DecidableEq, Repr

/-- The function `createStakes`: the commands sent, where `unspentOutputs i` is the reply of node `i` to
`listUnspentLinkedToMe`. -/
def createStakes (ipAddresses : List String) (unspentOutputs : Nat → List Utxo) : List Msg :=
  ipAddresses.enum.flatMap fun node =>
    ⟨"listUnspentLinkedToMe", node.2⟩ ::
      match unspentOutputs node.1 with
      | [] => []
      | u :: _ => ipAddresses.map fun ipAddress => ⟨"stake " ++ u.txid ++ " " ++ u.address, ipAddress⟩

/-- One turn of the `while` loop of `createTransactions`, as seen from the harness. -/
structure TxStep where
  /-- The values returned by `std::rand()` during the turn. -/
  draws : List Nat
  /-- The reply to `createNewTransaction`. -/
  newTxid : String
  /-- The reply to `printTransaction`. -/
  newTx : Transaction
  /-- The reply to the `listUnspentLinkedToMe` that ends the turn. -/
  unspentOutputs : List Utxo

/-- What one node answers while `createTransactions` works on it. -/
structure TxScript where
  /-- The reply to the first `listUnspentLinkedToMe`. -/
  unspentOutputs : List Utxo
  steps : List TxStep

/-- The receiver drawn in `createTransactions`: the first draw, reduced modulo the number of
addresses, that differs from `lastReceiver`. -/
def pickReceiver (size lastReceiver : Nat) : List Nat → Option Nat
  | [] => none
  | d :: ds => if lastReceiver = d % size then pickReceiver size lastReceiver ds else some (d % size)

/-- The `while (unspentOutputs.size() > 1)` loop of `createTransactions` for the node at
`ipAddress`. `none` when the replies given do not let the loop finish. -/
def transactionLoop (ipAddress : String) (receiversIpAddresses addresses : List String) :
    List TxStep → Nat → List Utxo → Option (List Msg)
  | [], _, unspentOutputs => if unspentOutputs.length > 1 then none else some []
  | st :: steps, lastReceiver, unspentOutputs =>
    match unspentOutputs with
    | u :: _ :: _ =>
      match pickReceiver addresses.length lastReceiver st.draws with
      | none => none
      | some randomReceiver =>
        match addresses[randomReceiver]?,
          transactionLoop ipAddress receiversIpAddresses addresses steps randomReceiver
            st.unspentOutputs with
        | some receiver, some rest =>
          some ([⟨"createNewTransaction " ++ u.txid ++ " " ++ u.address ++ " " ++ receiver,
                   ipAddress⟩,
                 ⟨"printTransaction " ++ st.newTxid, ipAddress⟩] ++
                receiversIpAddresses.map (fun ip =>
                  ⟨"loadTransaction " ++ u.txid ++ " " ++ u.address ++ " " ++ st.newTx.address ++
                    " " ++ st.newTx.timestamp, ip⟩) ++
                ⟨"listUnspentLinkedToMe", ipAddress⟩ :: rest)
        | _, _ => none
    | _ => some []

/-- The outer loop of `createTransactions` from node `i` on. -/
def createTransactionsFrom (ipAddresses addresses : List String) (scripts : Nat → TxScript) :
    Nat → List String → Option (List Msg)
  | _, [] => some []
  | i, ipAddress :: rest =>
    match transactionLoop ipAddress (ipAddresses.eraseIdx i) addresses (scripts i).steps
        addresses.length (scripts i).unspentOutputs,
      createTransactionsFrom ipAddresses addresses scripts (i + 1) rest with
    | some here, some later => some (⟨"listUnspentLinkedToMe", ipAddress⟩ :: here ++ later)
    | _, _ => none

/-- The function `createTransactions`: the commands sent. -/
def createTransactions (ipAddresses addresses : List String) (scripts : Nat → TxScript) :
    Option (List Msg) :=
  createTransactionsFrom ipAddresses addresses scripts 0 ipAddresses

/-- What `generateBlockTo` reads from the nodes and from its environment. -/
structure BlockToInput where
  /-- The `txid` fields of the reply of the creator's node to `listMempool`. -/
  mempool : List String
  /-- The value returned by `std::rand()`. -/
  rand : Nat
  /-- Seconds since the epoch. -/
  timeNow : Nat
  /-- The reply of node 0 to `loadCoinbaseTransaction`. -/
  coinbaseTxid : String

/-- The number of mempool entries `generateBlockTo` puts into the block. -/
def transactionCnt (inp : BlockToInput) : Nat :=
  if inp.mempool.length > 0 then inp.rand % inp.mempool.length else 0

/-- The function `generateBlockTo`: the commands sent. `none` where the source has no defined
behaviour: `expectedCreator` is not among the addresses, or a node position is out of range. -/
def generateBlockTo (expectedCreator : String) (ipAddresses vulnCoinAddresses : List String)
    (inp : BlockToInput) : Option (List Msg) :=
  if expectedCreator ∈ vulnCoinAddresses then
    match ipAddresses[vulnCoinAddresses.indexOf expectedCreator]?, ipAddresses.head? with
    | some creatorIp, some ip0 =>
      let commandLoad := "loadCoinbaseTransaction " ++ expectedCreator ++ " " ++ toString inp.timeNow
      let commandPropose := "proposeBlock \x7b" ++ inp.coinbaseTxid ++
        ((inp.mempool.take (transactionCnt inp)).foldl (fun oss t => oss ++ " " ++ t) "") ++ "\x7d"
      some ([⟨"listMempool", creatorIp⟩, ⟨commandLoad, ip0⟩, ⟨commandPropose, ip0⟩] ++
        (ipAddresses.drop 1).flatMap fun ip => [⟨commandLoad, ip⟩, ⟨commandPropose, ip⟩])
    | _, _ => none
  else none

/-- The loop of the validator probe over the nodes after node 0, `i` being the position of
the first of them: the queries sent and whether every answer was `expectedCreator`. The loop
is left at the first answer that differs. -/
def probeLoop (expectedCreator : String) (answer : Nat → String) :
    Nat → List String → List Msg × Bool
  | _, [] => ([], true)
  | i, ipAddress :: rest =>
    if answer i ≠ expectedCreator then ([⟨"countNextValidator", ipAddress⟩], false)
    else
      (⟨"countNextValidator", ipAddress⟩ :: (probeLoop expectedCreator answer (i + 1) rest).1,
        (probeLoop expectedCreator answer (i + 1) rest).2)

/-- Outcome of the validator probe: the commands sent, the answer of node 0, and the status
the process exits with when the probe fails. -/
structure ProbeResult where
  sent : List Msg
  expectedCreator : String
  exitStatus : Option Nat
deriving DecidableEq, Repr

/-- The validator selection probe of `main`, where `answer i` is the reply of node `i` to
`countNextValidator`. `none` for an empty fleet. -/
def validatorProbe (ipAddresses : List String) (answer : Nat → String) : Option ProbeResult :=
  match ipAddresses with
  | [] => none
  | ip0 :: rest =>
    let expectedCreator := answer 0
    let r := probeLoop expectedCreator answer 1 rest
    if r.2 then some ⟨⟨"countNextValidator", ip0⟩ :: r.1, expectedCreator, none⟩
    else some ⟨⟨"countNextValidator", ip0⟩ :: r.1 ++ stopServers ipAddresses, expectedCreator, some 1⟩

/-- What the nodes answer during one consensus round. -/
structure RoundInput where
  scripts : Nat → TxScript
  nextValidator : Nat → String
  unspentOutputs : Nat → List Utxo
  grindInput : GrindInput
  blockInput : BlockToInput

/-- How a consensus round ends. -/
inductive RoundOutcome
  /-- The attacker was chosen and `grind` ran. -/
  | attackerBlock
  /-- Another node was chosen and `generateBlockTo` ran. -/
  | networkBlock
  /-- The process has called `exit` with the given status. -/
  | exited (status : Nat)
  /-- The source has no defined behaviour. -/
  | undefined
deriving DecidableEq, Repr

/-- The body of the round loop of `main`: the commands sent and how the round ends. -/
def consensusRound (ipAddresses vulncoinAddresses : List String) (inp : RoundInput) :
    List Msg × RoundOutcome :=
  match createTransactions ipAddresses vulncoinAddresses inp.scripts,
    validatorProbe ipAddresses inp.nextValidator, vulncoinAddresses.head? with
  | some fanOut, some probe, some attacker =>
    match probe.exitStatus with
    | some status => (fanOut ++ probe.sent, RoundOutcome.exited status)
    | none =>
      let stakes := createStakes ipAddresses inp.unspentOutputs
      if probe.expectedCreator = attacker then
        match grind ipAddresses attacker inp.grindInput with
        | some r => (fanOut ++ probe.sent ++ stakes ++ r.sent, RoundOutcome.attackerBlock)
        | none => (fanOut ++ probe.sent ++ stakes, RoundOutcome.undefined)
      else
        match generateBlockTo probe.expectedCreator ipAddresses vulncoinAddresses inp.blockInput with
        | some sent => (fanOut ++ probe.sent ++ stakes ++ sent, RoundOutcome.networkBlock)
        | none => (fanOut ++ probe.sent ++ stakes, RoundOutcome.undefined)
  | _, _, _ => ([], RoundOutcome.undefined)

/-- State of the run between two rounds. -/
inductive RunStatus
  | running
  | exited (status : Nat)
  | undefined
deriving DecidableEq, Repr

/-- The tallies of `main`, the commands sent by the rounds so far, and the state of the run. -/
structure RunState where
  attackerTotal : Nat
  networkTotal : Nat
  sent : List Msg
  status : RunStatus

/-- The state after `i` turns of the round loop of `main`; `inputs k` is what the nodes answer
in round `k`. The tallies are of type `size_t`. -/
def consensusRounds (ipAddresses vulncoinAddresses : List String) (inputs : Nat → RoundInput) :
    Nat → RunState
  | 0 => ⟨0, 0, [], RunStatus.running⟩
  | i + 1 =>
    let s := consensusRounds ipAddresses vulncoinAddresses inputs i
    match s.status with
    | RunStatus.running =>
      let r := consensusRound ipAddresses vulncoinAddresses (inputs i)
      match r.2 with
      | RoundOutcome.attackerBlock =>
        ⟨(s.attackerTotal + 1) % 2 ^ 64, s.networkTotal, s.sent ++ r.1, RunStatus.running⟩
      | RoundOutcome.networkBlock =>
        ⟨s.attackerTotal, (s.networkTotal + 1) % 2 ^ 64, s.sent ++ r.1, RunStatus.running⟩
      | RoundOutcome.exited status =>
        ⟨s.attackerTotal, s.networkTotal, s.sent ++ r.1, RunStatus.exited status⟩
      | RoundOutcome.undefined =>
        ⟨s.attackerTotal, s.networkTotal, s.sent ++ r.1, RunStatus.undefined⟩
    | _ => s

/-- The verdict printed at the end of `main`. -/
def verdict (s : RunState) : String :=
  if s.attackerTotal > s.networkTotal then "Attack successful!" else "Attack unsuccessful!"

/-- One evaluation of the condition of the start-up loop of `main`: the `getBlockCount`
queries sent (the `||` stops at the first reply that is not `"1"`) and whether the condition
holds, that is whether some node is not yet ready. -/
def pollServers (ipAddresses : List String) (reply : Nat → String) : List Msg × Bool :=
  if reply 0 ≠ "1" then ([⟨"getBlockCount", ipAddresses.getD 0 ""⟩], true)
  else if reply 1 ≠ "1" then
    ([⟨"getBlockCount", ipAddresses.getD 0 ""⟩, ⟨"getBlockCount", ipAddresses.getD 1 ""⟩], true)
  else
    ([⟨"getBlockCount", ipAddresses.getD 0 ""⟩, ⟨"getBlockCount", ipAddresses.getD 1 ""⟩,
      ⟨"getBlockCount", ipAddresses.getD 2 ""⟩], decide (reply 2 ≠ "1"))

/-- Outcome of the start-up loop: the queries of each evaluation of its condition, the commands
sent afterwards, and the exit status if the process has exited. -/
structure StartResult where
  polls : List (List Msg)
  sent : List Msg
  exitStatus : Option Nat
deriving DecidableEq, Repr

/-- The start-up loop of `main` entered with the given value of `timeoutCnt`; `reply k i` is
the reply of node `i` to `getBlockCount` when the condition is evaluated with
`timeoutCnt = k`. `none` when the iteration budget is used up. -/
def waitForServers (ipAddresses : List String) (reply : Nat → Nat → String) :
    Nat → Nat → Option StartResult
  | 0, _ => none
  | fuel + 1, timeoutCnt =>
    let p := pollServers ipAddresses (reply timeoutCnt)
    if p.2 then
      if timeoutCnt = 5 then some ⟨[p.1], stopServers ipAddresses, some 1⟩
      else
        (waitForServers ipAddresses reply fuel (timeoutCnt + 1)).map
          fun r => ⟨p.1 :: r.polls, r.sent, r.exitStatus⟩
    else some ⟨[p.1], [], none⟩

/-- The start-up phase of `main`, with a budget of six evaluations of the loop condition. -/
def startServers (ipAddresses : List String) (reply : Nat → Nat → String) : Option StartResult :=
  waitForServers ipAddresses reply 6 0

/-- Whether a command is a `stake` command. -/
def isStake (m : Msg) : Bool := "stake ".data.isPrefixOf m.message.data

/-- Whether a command is a `countNextValidator` query. -/
def isCountNextValidator (m : Msg) : Bool := "countNextValidator".data.isPrefixOf m.message.data

/-- The addresses of the three nodes of `exampleFleet`. -/
def exampleAddresses : List String := ["a0", "a1", "a2"]

/-- A round in which every node owns a single output, so that no transaction is created, all
nodes name `a1` as the next validator, and the mempool of that node is empty. -/
def exampleRound : RoundInput :=
  { scripts := fun _ => ⟨[⟨"u", "a"⟩], []⟩
    nextValidator := fun _ => "a1"
    unspentOutputs := fun _ => [⟨"u", "a"⟩]
    grindInput := exampleInput
    blockInput := ⟨[], 0, 1700000000, "cb"⟩ }

/-- A round as `exampleRound` in which no node answers the `countNextValidator` query: every
reply is the empty string. -/
def silentRound : RoundInput :=
  { exampleRound with nextValidator := fun _ => "" }

/-- The transactions-hash component computed inside `getBlockHash`: the digest of the
transaction ids written one after the other. -/
def transactionHash (transactions : List String) : String :=
  sha256 (transactions.foldl (fun oss t => oss ++ t) "")

/-- What `generateRandomBlock` reads from the node it has chosen and from its environment. -/
structure RandomBlockInput where
  /-- The value returned by `std::rand()`. -/
  rand : Nat
  /-- The reply of the chosen node to `printBlockchain`. -/
  blockchain : List Block
  /-- The reply of the chosen node to `printTransaction`. -/
  coinbaseTransaction : Transaction

/-- The function `generateRandomBlock`: the commands sent and the position returned. `none`
where the source has no defined behaviour: an empty fleet, an empty blockchain, a last block
without transactions. -/
def generateRandomBlock (ipAddresses : List String) (inp : RandomBlockInput) :
    Option (List Msg × Nat) :=
  let randomPos := inp.rand % ipAddresses.length
  match ipAddresses[randomPos]?, inp.blockchain.getLast? with
  | some randomlyChosenIp, some lastBlock =>
    match lastBlock.transactions.head? with
    | some coinbaseTxid =>
      let commandLoad := "loadCoinbaseTransaction " ++ inp.coinbaseTransaction.address ++ " " ++
        inp.coinbaseTransaction.timestamp
      let commandPropose := "proposeBlock \x7b" ++ coinbaseTxid ++ "\x7d"
      some ([⟨"generate", randomlyChosenIp⟩, ⟨"printBlockchain", randomlyChosenIp⟩,
          ⟨"printTransaction " ++ coinbaseTxid, randomlyChosenIp⟩] ++
        (ipAddresses.eraseIdx randomPos).flatMap fun address =>
          [⟨commandLoad, address⟩, ⟨commandPropose, address⟩], randomPos)
    | none => none
  | _, _ => none

/-- Replies of a node whose chain ends with a block holding the coinbase transaction `c9`, and
the draw 7, which selects position 1 of a fleet of three. -/
def exampleRandomBlock : RandomBlockInput :=
  { rand := 7
    blockchain := [⟨"00", ["t0"]⟩, ⟨"h1", ["c9"]⟩]
    coinbaseTransaction := ⟨"a1", "1700000000", "c9"⟩ }

/-- A mempool of three entries and the draw 5, which puts two of them into the block. -/
def exampleBlockInput : BlockToInput :=
  { mempool := ["m1", "m2", "m3"], rand := 5, timeNow := 1700000000, coinbaseTxid := "cb" }

/-- The number the specification derives from a hexadecimal string such as an address or a
block hash: its first `width` characters interpreted as a hexadecimal integer (8 characters
are 32 bits, 16 characters are 64 bits). -/
def specHexPrefix (width : Nat) (s : String) : Nat :=
  (s.data.take width).foldl (fun acc c => 16 * acc + (hexDigitValue c).getD 0) 0

/-- Replies of the attacker's node as in `exampleInput`, with an empty mempool and an old
stake pool of three addresses whose first 8 and next 8 hexadecimal characters hold different
numbers. -/
def accumulatorInput : GrindInput :=
  { exampleInput with
    oldStakepool := ["0000000100000002", "0000000200000002", "0000000100000001"]
    mempool := [] }

/-- Replies of the attacker's node with an empty mempool and the coinbase id `c0`. -/
def singleInput : GrindInput :=
  { exampleInput with mempool := [], coinbaseTxid := "c0" }

/-- The hash state from which `sha256` prints its result. -/
def digestState (stringToHash : String) : HashState :=
  compressBlocks ((padMessage (bytesOf stringToHash)).length / 64)
    (wordsOfBytes (padMessage (bytesOf stringToHash))) initState

/-- The four bits printed by `hexNibble`, as a number below 16. -/
def nibble (w i : Nat) : Fin 16 := ⟨(w >>> (4 * (7 - i))) % 16, Nat.mod_lt _ (by decide)⟩

/-- The eight hexadecimal digits of a word, as numbers. -/
def wordNibbles (w : Nat) : List (Fin 16) :=
  [nibble w 0, nibble w 1, nibble w 2, nibble w 3, nibble w 4, nibble w 5, nibble w 6, nibble w 7]

/-- The 64 hexadecimal digits of a digest, as numbers. -/
def digestNibbles (stringToHash : String) : Mathlib.Vector (Fin 16) 64 :=
  ⟨wordNibbles (digestState stringToHash).a ++ wordNibbles (digestState stringToHash).b ++
    wordNibbles (digestState stringToHash).c ++ wordNibbles (digestState stringToHash).d ++
    wordNibbles (digestState stringToHash).e ++ wordNibbles (digestState stringToHash).f ++
    wordNibbles (digestState stringToHash).g ++ wordNibbles (digestState stringToHash).h, rfl⟩

/-- A family of 58 different transaction ids of 58 characters each. -/
def sameLengthId (i : Fin 58) : String :=
  ⟨List.replicate i.val 'a' ++ List.replicate (58 - i.val) 'b'⟩

/-- The ids of the family `sameLengthId` in the order given by a permutation of their
indices. -/
def idsOf (σ : Equiv.Perm (Fin 58)) : List String :=
  List.ofFn fun i => sameLengthId (σ i)

end Driver

/-! ## Theorems -/

section PermutationTheory

variable {α : Type} [LinearOrder α]

/-- Lexicographic comparison of two ranges, as `std::lexicographical_compare` with `<`. -/
abbrev LexLt (l l' : List α) : Prop := List.Lex (· < ·) l l'

theorem lexLt_irrefl (l : List α) : ¬ LexLt l l := fun h => lt_irrefl l h

theorem lexLt_trans {a b c : List α} (h₁ : LexLt a b) (h₂ : LexLt b c) : LexLt a c :=
  lt_trans (α := List α) h₁ h₂

theorem lexLt_asymm {a b : List α} (h₁ : LexLt a b) (h₂ : LexLt b a) : False :=
  lt_asymm (α := List α) h₁ h₂

theorem lexLt_trichotomy (a b : List α) : LexLt a b ∨ a = b ∨ LexLt b a :=
  lt_trichotomy (α := List α) a b

theorem lexLt_cons_iff {a b : α} {l l' : List α} :
    LexLt (a :: l) (b :: l') ↔ a < b ∨ (a = b ∧ LexLt l l') := by
  constructor
  · intro h
    cases h with
    | cons h => exact Or.inr ⟨rfl, h⟩
    | rel h => exact Or.inl h
  · rintro (h | ⟨rfl, h⟩)
    · exact List.Lex.rel h
    · exact List.Lex.cons h

/-- A non-increasing range is the last arrangement of its elements. -/
theorem not_lexLt_of_sorted_ge {l : List α} (hl : l.Sorted (· ≥ ·)) :
    ∀ {p : List α}, p.Perm l → ¬ LexLt l p := by
  induction l with
  | nil =>
    intro p hp h
    rw [List.perm_nil.mp hp] at h
    exact lexLt_irrefl _ h
  | cons x l ih =>
    intro p hp h
    cases p with
    | nil => exact absurd hp.symm (List.cons_ne_nil _ _ ∘ List.perm_nil.mp)
    | cons y p =>
      rcases lexLt_cons_iff.mp h with hxy | ⟨rfl, hlt⟩
      · have hy : y ∈ x :: l := hp.subset (List.mem_cons_self _ _)
        rcases List.mem_cons.mp hy with rfl | hy
        · exact lt_irrefl _ hxy
        · exact absurd hxy (not_lt.mpr (List.rel_of_sorted_cons hl y hy))
      · exact ih (List.sorted_cons.mp hl).2 (List.Perm.cons_inv hp) hlt

/-- A non-decreasing range is the first arrangement of its elements. -/
theorem not_lexLt_of_sorted_le {l : List α} (hl : l.Sorted (· ≤ ·)) :
    ∀ {p : List α}, p.Perm l → ¬ LexLt p l := by
  induction l with
  | nil =>
    intro p hp h
    rw [List.perm_nil.mp hp] at h
    exact lexLt_irrefl _ h
  | cons x l ih =>
    intro p hp h
    cases p with
    | nil => exact absurd hp.symm (List.cons_ne_nil _ _ ∘ List.perm_nil.mp)
    | cons y p =>
      rcases lexLt_cons_iff.mp h with hyx | ⟨rfl, hlt⟩
      · have hy : y ∈ x :: l := hp.subset (List.mem_cons_self _ _)
        rcases List.mem_cons.mp hy with rfl | hy
        · exact lt_irrefl _ hyx
        · exact absurd hyx (not_lt.mpr (List.rel_of_sorted_cons hl y hy))
      · exact ih (List.sorted_cons.mp hl).2 (List.Perm.cons_inv hp) hlt

/-- A range squeezed between two ranges with a common prefix has that prefix too. -/
theorem lexLt_sandwich (pre : List α) {x y p : List α}
    (h₁ : LexLt (pre ++ x) p) (h₂ : LexLt p (pre ++ y)) :
    ∃ q, p = pre ++ q ∧ LexLt x q ∧ LexLt q y := by
  induction pre generalizing p with
  | nil => exact ⟨p, rfl, h₁, h₂⟩
  | cons c pre ih =>
    cases p with
    | nil => exact absurd h₁ (List.Lex.not_nil_right _ _)
    | cons d p =>
      rw [List.cons_append] at h₁ h₂
      rcases lexLt_cons_iff.mp h₁ with hcd | ⟨rfl, h₁'⟩
      · rcases lexLt_cons_iff.mp h₂ with hdc | ⟨rfl, _⟩
        · exact absurd hcd (lt_asymm hdc)
        · exact absurd hcd (lt_irrefl _)
      · rcases lexLt_cons_iff.mp h₂ with hdc | ⟨_, h₂'⟩
        · exact absurd hdc (lt_irrefl _)
        · obtain ⟨q, rfl, hq₁, hq₂⟩ := ih h₁' h₂'
          exact ⟨q, rfl, hq₁, hq₂⟩

theorem findPivot_none {rev suf : List α} (h : findPivot rev suf = none)
    (hs : suf.Sorted (· ≥ ·)) : (rev.reverse ++ suf).Sorted (· ≥ ·) := by
  induction rev generalizing suf with
  | nil => simpa using hs
  | cons a rev ih =>
    cases suf with
    | nil =>
      simp only [findPivot] at h
      simpa using ih h (List.sorted_singleton a)
    | cons s suf =>
      simp only [findPivot] at h
      split_ifs at h with has
      have := ih h (List.sorted_cons.mpr ⟨fun b hb => by
        rcases List.mem_cons.mp hb with rfl | hb
        · exact not_lt.mp has
        · exact le_trans (List.rel_of_sorted_cons hs b hb) (not_lt.mp has), hs⟩)
      simpa using this

theorem findPivot_some {rev suf rev' suf' : List α} {a : α}
    (h : findPivot rev suf = some (rev', a, suf')) (hs : suf.Sorted (· ≥ ·)) :
    rev.reverse ++ suf = rev'.reverse ++ a :: suf' ∧ suf'.Sorted (· ≥ ·) ∧
      ∃ s ∈ suf', a < s := by
  induction rev generalizing suf with
  | nil => simp [findPivot] at h
  | cons b rev ih =>
    cases suf with
    | nil =>
      simp only [findPivot] at h
      simpa using ih h (List.sorted_singleton b)
    | cons s suf =>
      simp only [findPivot] at h
      split_ifs at h with hbs
      · simp only [Option.some.injEq, Prod.mk.injEq] at h
        obtain ⟨rfl, rfl, rfl⟩ := h
        exact ⟨by simp, hs, s, List.mem_cons_self _ _, hbs⟩
      · have := ih h (List.sorted_cons.mpr ⟨fun c hc => by
          rcases List.mem_cons.mp hc with rfl | hc
          · exact not_lt.mp hbs
          · exact le_trans (List.rel_of_sorted_cons hs c hc) (not_lt.mp hbs), hs⟩)
        simpa using this

theorem swapPivot_perm (a : α) (rs : List α) :
    ((swapPivot a rs).1 :: (swapPivot a rs).2).Perm (a :: rs) := by
  induction rs with
  | nil => simp [swapPivot]
  | cons b rs ih =>
    simp only [swapPivot]
    split_ifs with h
    · exact List.Perm.swap _ _ _
    · exact ((List.Perm.swap _ _ _).trans (ih.cons b)).trans (List.Perm.swap _ _ _)

theorem swapPivot_spec (a : α) {rs : List α} (hs : rs.Sorted (· ≤ ·))
    (hex : ∃ c ∈ rs, a < c) :
    a < (swapPivot a rs).1 ∧ (swapPivot a rs).2.Sorted (· ≤ ·) ∧
      ∀ c ∈ rs, a < c → (swapPivot a rs).1 ≤ c := by
  induction rs with
  | nil => simp at hex
  | cons b rs ih =>
    simp only [swapPivot]
    split_ifs with h
    · refine ⟨h, ?_, ?_⟩
      · exact List.sorted_cons.mpr ⟨fun c hc =>
          le_trans h.le (List.rel_of_sorted_cons hs c hc), (List.sorted_cons.mp hs).2⟩
      · intro c hc _
        rcases List.mem_cons.mp hc with rfl | hc
        · exact le_rfl
        · exact List.rel_of_sorted_cons hs c hc
    · have hex' : ∃ c ∈ rs, a < c := by
        obtain ⟨c, hc, hac⟩ := hex
        rcases List.mem_cons.mp hc with rfl | hc
        · exact absurd hac h
        · exact ⟨c, hc, hac⟩
      obtain ⟨h1, h2, h3⟩ := ih (List.sorted_cons.mp hs).2 hex'
      refine ⟨h1, ?_, ?_⟩
      · refine List.sorted_cons.mpr ⟨fun c hc => ?_, h2⟩
        have hmem : c ∈ a :: rs :=
          (swapPivot_perm a rs).subset (List.mem_cons_of_mem _ hc)
        rcases List.mem_cons.mp hmem with rfl | hc'
        · exact not_lt.mp h
        · exact List.rel_of_sorted_cons hs c hc'
      · intro c hc hac
        rcases List.mem_cons.mp hc with rfl | hc
        · exact absurd hac h
        · exact h3 c hc hac

theorem nextPermutation_false {l l' : List α} (h : nextPermutation l = (l', false)) :
    l.Sorted (· ≥ ·) ∧ l' = l.reverse := by
  unfold nextPermutation at h
  split at h
  · next hp =>
    have := findPivot_none hp List.sorted_nil
    simp only [Prod.mk.injEq] at h
    exact ⟨by simpa using this, h.1.symm⟩
  · simp at h

theorem nextPermutation_true {l l' : List α} (h : nextPermutation l = (l', true)) :
    l'.Perm l ∧ LexLt l l' ∧ ∀ p : List α, p.Perm l → LexLt l p → ¬ LexLt p l' := by
  unfold nextPermutation at h
  split at h
  · simp at h
  · next rev a suf hp =>
    simp only [Prod.mk.injEq, and_true] at h
    obtain ⟨hl, hsuf, s, hsmem, has⟩ := findPivot_some hp List.sorted_nil
    simp only [List.reverse_reverse, List.append_nil] at hl
    have hasc : suf.reverse.Sorted (· ≤ ·) := by
      have : suf.reverse.Pairwise (· ≤ ·) := List.pairwise_reverse.mpr hsuf
      exact this
    have hex : ∃ c ∈ suf.reverse, a < c := ⟨s, List.mem_reverse.mpr hsmem, has⟩
    obtain ⟨hab, htail, hmin⟩ := swapPivot_spec a hasc hex
    have hperm := swapPivot_perm a suf.reverse
    set b := (swapPivot a suf.reverse).1 with hb
    set tail := (swapPivot a suf.reverse).2 with ht
    have hperm' : (b :: tail).Perm (a :: suf) :=
      hperm.trans ((List.reverse_perm suf).cons a)
    subst h
    rw [hl]
    refine ⟨(List.perm_append_left_iff _).mpr hperm', ?_, ?_⟩
    · exact List.Lex.append_left _ (List.Lex.rel hab) _
    · intro p hp₁ hp₂ hp₃
      obtain ⟨q, rfl, hq₁, hq₂⟩ := lexLt_sandwich _ hp₂ hp₃
      have hq : q.Perm (a :: suf) := (List.perm_append_left_iff _).mp hp₁
      cases q with
      | nil => exact absurd hq₁ (List.Lex.not_nil_right _ _)
      | cons c q =>
        rcases lexLt_cons_iff.mp hq₁ with hac | ⟨rfl, hlt⟩
        · rcases lexLt_cons_iff.mp hq₂ with hcb | ⟨rfl, hlt⟩
          · have hc : c ∈ a :: suf := hq.subset (List.mem_cons_self _ _)
            rcases List.mem_cons.mp hc with rfl | hc
            · exact lt_irrefl _ hac
            · exact absurd hcb (not_lt.mpr (hmin c (List.mem_reverse.mpr hc) hac))
          · exact not_lexLt_of_sorted_le htail
              (List.Perm.cons_inv (hq.trans hperm'.symm)) hlt
        · exact not_lexLt_of_sorted_ge hsuf (List.Perm.cons_inv hq) hlt

/-- The three ways one turn of the loop can end. -/
theorem permLoop_cases {test : List α → Bool} {fuel : Nat} {l : List α} {r : LoopResult α}
    (h : permLoop test (fuel + 1) l = some r) :
    (test l = true ∧ r = ⟨[l], l, true⟩) ∨
    (test l = false ∧ ∃ l' r', nextPermutation l = (l', true) ∧
      permLoop test fuel l' = some r' ∧ r = ⟨l :: r'.tested, r'.txids, r'.successfulGrind⟩) ∨
    (test l = false ∧ ∃ l', nextPermutation l = (l', false) ∧ r = ⟨[l], l', false⟩) := by
  simp only [permLoop] at h
  by_cases ht : test l = true
  · rw [if_pos ht] at h
    exact Or.inl ⟨ht, (Option.some.inj h).symm⟩
  · rw [if_neg ht] at h
    have ht' : test l = false := by simpa using ht
    rcases hn : nextPermutation l with ⟨l', b⟩
    rw [hn] at h
    cases b with
    | true =>
      simp only [Option.map_eq_some'] at h
      obtain ⟨r', hr', rfl⟩ := h
      exact Or.inr (Or.inl ⟨ht', l', r', rfl, hr', rfl⟩)
    | false =>
      simp only [Option.some.injEq] at h
      exact Or.inr (Or.inr ⟨ht', l', rfl, h.symm⟩)

theorem arrangementsAbove_lt_factorial (l : List α) :
    arrangementsAbove l < l.length.factorial := by
  unfold arrangementsAbove
  calc (l.permutations.toFinset.filter fun p => List.Lex (· < ·) l p).card
      < l.permutations.toFinset.card := by
        apply Finset.card_lt_card
        refine Finset.ssubset_iff_subset_ne.mpr ⟨Finset.filter_subset _ _, fun heq => ?_⟩
        have hmem : l ∈ l.permutations.toFinset := by simp
        rw [← heq, Finset.mem_filter] at hmem
        exact lexLt_irrefl l hmem.2
    _ ≤ l.permutations.length := List.toFinset_card_le _
    _ = l.length.factorial := List.length_permutations l

theorem arrangementsAbove_next {l l' : List α} (h : nextPermutation l = (l', true)) :
    arrangementsAbove l' < arrangementsAbove l := by
  obtain ⟨hperm, hlt, _⟩ := nextPermutation_true h
  unfold arrangementsAbove
  apply Finset.card_lt_card
  refine Finset.ssubset_iff_subset_ne.mpr ⟨fun p hp => ?_, fun heq => ?_⟩
  · simp only [Finset.mem_filter, List.mem_toFinset, List.mem_permutations] at hp ⊢
    exact ⟨hp.1.trans hperm, lexLt_trans hlt hp.2⟩
  · have hmem : l' ∈ l.permutations.toFinset.filter fun p => List.Lex (· < ·) l p := by
      simp only [Finset.mem_filter, List.mem_toFinset, List.mem_permutations]
      exact ⟨hperm, hlt⟩
    rw [← heq, Finset.mem_filter] at hmem
    exact lexLt_irrefl l' hmem.2

/-- The loop ends within the budget whenever the budget exceeds the number of arrangements
still ahead, and it tests at most that many orderings plus one. -/
theorem permLoop_terminates (test : List α → Bool) :
    ∀ (fuel : Nat) (l : List α), arrangementsAbove l < fuel →
      ∃ r, permLoop test fuel l = some r ∧ r.tested.length ≤ arrangementsAbove l + 1 := by
  intro fuel
  induction fuel with
  | zero => intro l h; exact absurd h (Nat.not_lt_zero _)
  | succ fuel ih =>
    intro l h
    simp only [permLoop]
    by_cases ht : test l = true
    · rw [if_pos ht]
      exact ⟨_, rfl, by simp⟩
    · rw [if_neg ht]
      rcases hn : nextPermutation l with ⟨l', b⟩
      cases b with
      | true =>
        have hlt := arrangementsAbove_next hn
        obtain ⟨r', hr', hlen⟩ := ih l' (by omega)
        refine ⟨_, by simp only [hr', Option.map_some']; rfl, ?_⟩
        simp only [List.length_cons]
        omega
      | false => exact ⟨_, rfl, by simp⟩

theorem permLoop_tested_head {test : List α → Bool} :
    ∀ {fuel : Nat} {l : List α} {r : LoopResult α}, permLoop test fuel l = some r →
      ∃ rest, r.tested = l :: rest := by
  intro fuel
  induction fuel with
  | zero => intro l r h; simp [permLoop] at h
  | succ fuel ih =>
    intro l r h
    rcases permLoop_cases h with ⟨_, rfl⟩ | ⟨_, l', r', _, _, rfl⟩ | ⟨_, l', _, rfl⟩
    · exact ⟨[], rfl⟩
    · exact ⟨r'.tested, rfl⟩
    · exact ⟨[], rfl⟩

/-- Consecutive tested orderings are consecutive arrangements: the later one is the result of
`std::next_permutation` on the earlier one. -/
theorem permLoop_tested_chain {test : List α → Bool} :
    ∀ {fuel : Nat} {l : List α} {r : LoopResult α}, permLoop test fuel l = some r →
      r.tested.Chain' (fun p q => nextPermutation p = (q, true)) := by
  intro fuel
  induction fuel with
  | zero => intro l r h; simp [permLoop] at h
  | succ fuel ih =>
    intro l r h
    rcases permLoop_cases h with ⟨_, rfl⟩ | ⟨_, l', r', hn, hr', rfl⟩ | ⟨_, l', _, rfl⟩
    · exact List.chain'_singleton _
    · obtain ⟨rest, hrest⟩ := permLoop_tested_head hr'
      have := ih hr'
      simp only [hrest] at this ⊢
      exact List.Chain'.cons hn this
    · exact List.chain'_singleton _

theorem permLoop_tested_perm {test : List α → Bool} :
    ∀ {fuel : Nat} {l : List α} {r : LoopResult α}, permLoop test fuel l = some r →
      (∀ p ∈ r.tested, p.Perm l) ∧ r.txids.Perm l := by
  intro fuel
  induction fuel with
  | zero => intro l r h; simp [permLoop] at h
  | succ fuel ih =>
    intro l r h
    rcases permLoop_cases h with ⟨_, rfl⟩ | ⟨_, l', r', hn, hr', rfl⟩ | ⟨_, l', hn, rfl⟩
    · simp
    · obtain ⟨h1, h2⟩ := ih hr'
      have hperm := (nextPermutation_true hn).1
      refine ⟨fun p hp => ?_, h2.trans hperm⟩
      rcases List.mem_cons.mp hp with rfl | hp
      · exact List.Perm.refl _
      · exact (h1 p hp).trans hperm
    · refine ⟨by simp, ?_⟩
      rw [(nextPermutation_false hn).2]
      exact List.reverse_perm l

/-- The tested orderings are strictly increasing in lexicographic order. -/
theorem permLoop_tested_sorted {test : List α → Bool} :
    ∀ {fuel : Nat} {l : List α} {r : LoopResult α}, permLoop test fuel l = some r →
      r.tested.Pairwise LexLt := by
  intro fuel
  induction fuel with
  | zero => intro l r h; simp [permLoop] at h
  | succ fuel ih =>
    intro l r h
    rcases permLoop_cases h with ⟨_, rfl⟩ | ⟨_, l', r', hn, hr', rfl⟩ | ⟨_, l', _, rfl⟩
    · exact List.pairwise_singleton _ _
    · have hs := ih hr'
      obtain ⟨rest, hrest⟩ := permLoop_tested_head hr'
      have hlt := (nextPermutation_true hn).2.1
      refine List.pairwise_cons.mpr ⟨fun p hp => ?_, hs⟩
      simp only [hrest] at hp hs
      rcases List.mem_cons.mp hp with rfl | hp
      · exact hlt
      · exact lexLt_trans hlt (List.rel_of_pairwise_cons hs hp)
    · exact List.pairwise_singleton _ _

/-- A successful loop stops at the ordering that passed; every ordering tested before it
failed, and no arrangement from the start onwards that passes comes before it. -/
theorem permLoop_success {test : List α → Bool} :
    ∀ {fuel : Nat} {l : List α} {r : LoopResult α}, permLoop test fuel l = some r →
      r.successfulGrind = true →
      test r.txids = true ∧ r.tested.getLast? = some r.txids ∧
      (∀ p ∈ r.tested.dropLast, test p = false) ∧
      ∀ p : List α, p.Perm l → ¬ LexLt p l → test p = true → ¬ LexLt p r.txids := by
  intro fuel
  induction fuel with
  | zero => intro l r h; simp [permLoop] at h
  | succ fuel ih =>
    intro l r h hs
    rcases permLoop_cases h with ⟨ht, rfl⟩ | ⟨ht, l', r', hn, hr', rfl⟩ | ⟨_, l', _, rfl⟩
    · exact ⟨ht, rfl, by simp, fun p _ hp _ => hp⟩
    · obtain ⟨h1, h2, h3, h4⟩ := ih hr' hs
      obtain ⟨rest, hrest⟩ := permLoop_tested_head hr'
      obtain ⟨hperm, _, hsucc⟩ := nextPermutation_true hn
      refine ⟨h1, ?_, ?_, ?_⟩
      · simp only [hrest] at h2 ⊢
        rw [List.getLast?_cons_cons]
        exact h2
      · simp only [hrest] at h3 ⊢
        intro p hp
        rw [List.dropLast_cons₂] at hp
        rcases List.mem_cons.mp hp with rfl | hp
        · exact ht
        · exact h3 p hp
      · intro p hp hge htp
        rcases lexLt_trichotomy l p with hlt | rfl | hgt
        · exact h4 p (hp.trans hperm.symm) (hsucc p hp hlt) htp
        · rw [ht] at htp
          exact absurd htp (by simp)
        · exact absurd hgt hge
    · simp at hs

/-- An unsuccessful loop has tested every arrangement from the start onwards, all of them
failed, the last one tested is the non-increasing arrangement, and the range is left
reversed, that is in non-decreasing order. -/
theorem permLoop_failure {test : List α → Bool} :
    ∀ {fuel : Nat} {l : List α} {r : LoopResult α}, permLoop test fuel l = some r →
      r.successfulGrind = false →
      (∀ p ∈ r.tested, test p = false) ∧
      (∀ p : List α, p.Perm l → ¬ LexLt p l → p ∈ r.tested) ∧
      ∃ last, r.tested.getLast? = some last ∧ last.Sorted (· ≥ ·) ∧ r.txids = last.reverse := by
  intro fuel
  induction fuel with
  | zero => intro l r h; simp [permLoop] at h
  | succ fuel ih =>
    intro l r h hs
    rcases permLoop_cases h with ⟨_, rfl⟩ | ⟨ht, l', r', hn, hr', rfl⟩ | ⟨ht, l', hn, rfl⟩
    · simp at hs
    · obtain ⟨h1, h2, last, h3, h4, h5⟩ := ih hr' hs
      obtain ⟨rest, hrest⟩ := permLoop_tested_head hr'
      obtain ⟨hperm, _, hsucc⟩ := nextPermutation_true hn
      refine ⟨?_, ?_, last, ?_, h4, h5⟩
      · intro p hp
        rcases List.mem_cons.mp hp with rfl | hp
        · exact ht
        · exact h1 p hp
      · intro p hp hge
        rcases lexLt_trichotomy l p with hlt | rfl | hgt
        · exact List.mem_cons_of_mem _ (h2 p (hp.trans hperm.symm) (hsucc p hp hlt))
        · exact List.mem_cons_self _ _
        · exact absurd hgt hge
      · simp only [hrest] at h3 ⊢
        rw [List.getLast?_cons_cons]
        exact h3
    · obtain ⟨hsorted, hrev⟩ := nextPermutation_false hn
      refine ⟨?_, ?_, l, rfl, hsorted, hrev⟩
      · intro p hp
        rw [List.mem_singleton.mp hp]
        exact ht
      · intro p hp hge
        rcases lexLt_trichotomy l p with hlt | rfl | hgt
        · exact absurd hlt (not_lexLt_of_sorted_ge hsorted hp)
        · exact List.mem_singleton_self _
        · exact absurd hgt hge

end PermutationTheory

section GrindTheory

/-- The digest model agrees with the test vectors of SHA-256 for `"abc"` and for the empty
string, and its round constants start and end as in the standard. -/
theorem sha256_test_vectors :
    sha256 "abc" = "ba7816bf8f01cfea414140de5dae2223b00361a396177a9cb410ff61f20015ad" ∧
    sha256 "" = "e3b0c44298fc1c149afbf4c8996fb92427ae41e4649b934ca495991b7852b855" ∧
    K256.length = 64 ∧ K256.head? = some 0x428a2f98 ∧ K256.getLast? = some 0xc67178f2 := by
  decide!

theorem hexDigitValue_hexChar (n : Nat) : (hexDigitValue (hexChar n)).isSome = true := by
  by_cases h : n < 16
  · interval_cases n <;> decide
  · have : hexChar n = Char.ofNat 48 := by
      unfold hexChar
      rw [List.getD_eq_default _ _ (Nat.le_of_not_lt h)]
    rw [this]
    decide

theorem readHexDigits_seen (cs : List Char) : ∀ acc, (readHexDigits cs acc true).2 = true := by
  induction cs with
  | nil => intro acc; rfl
  | cons c cs ih =>
    intro acc
    simp only [readHexDigits]
    cases hexDigitValue c with
    | none => rfl
    | some d => exact ih _

/-- A string that starts with two hexadecimal digits is converted by `sscanf`. -/
theorem sscanfHex_isSome {c0 c1 : Char} (rest : List Char)
    (h0 : (hexDigitValue c0).isSome = true) (h1 : (hexDigitValue c1).isSome = true) :
    (sscanfHex (c0 :: c1 :: rest)).isSome = true := by
  have hsp : isSpace c0 = false := by
    unfold hexDigitValue at h0
    unfold isSpace
    split_ifs at h0 with a b c
    · simp; omega
    · simp; omega
    · simp; omega
    · simp at h0
  have hne : ∀ k : Nat, k = 45 ∨ k = 43 → c0 ≠ Char.ofNat k := by
    intro k hk heq
    have hk' : c0.toNat = k := by
      rcases hk with rfl | rfl <;> rw [heq] <;> rfl
    unfold hexDigitValue at h0
    split_ifs at h0 with a b c
    · omega
    · omega
    · omega
    · simp at h0
  have hx : ¬ (c1.toNat = 120 ∨ c1.toNat = 88) := by
    unfold hexDigitValue at h1
    split_ifs at h1 with a b c
    · omega
    · omega
    · omega
    · simp at h1
  obtain ⟨d, hd⟩ := Option.isSome_iff_exists.mp h0
  have hseen : (readHexDigits (c0 :: c1 :: rest) 0 false).2 = true := by
    have : readHexDigits (c0 :: c1 :: rest) 0 false =
        readHexDigits (c1 :: rest) (16 * 0 + d) true := by
      rw [readHexDigits, hd]
    rw [this]
    exact readHexDigits_seen _ _
  unfold sscanfHex
  simp only [List.dropWhile_cons, hsp, Bool.false_eq_true, if_false, List.head?_cons,
    Option.some.injEq, hne 45 (Or.inl rfl), hne 43 (Or.inr rfl), or_self, skipHexMarker, hx,
    and_false, hseen, if_true, Option.isSome_some]

theorem sha256_data_take (m : String) :
    ∃ (w : Nat) (rest : List Char),
      (sha256 m).data.take 16 = hexNibble w 0 :: hexNibble w 1 :: rest :=
  ⟨_, _, rfl⟩

/-- The conversion of a digest never fails, so the old content of `x` is never kept. -/
theorem scanInto_sha256 (m : String) (x : Nat) : scanInto (sha256 m) x = hexPrefix (sha256 m) := by
  obtain ⟨w, rest, h⟩ := sha256_data_take m
  have hs : (sscanfHex ((sha256 m).data.take 16)).isSome = true := by
    rw [h]
    exact sscanfHex_isSome rest (hexDigitValue_hexChar _) (hexDigitValue_hexChar _)
  obtain ⟨v, hv⟩ := Option.isSome_iff_exists.mp hs
  simp only [hexPrefix, scanInto, hv, Option.getD_some]

theorem scanInto_getBlockHash (h : String) (txids : List String) (x : Nat) :
    scanInto (getBlockHash h txids) x = hexPrefix (getBlockHash h txids) :=
  scanInto_sha256 _ x

/-- The permutation loop of `grind` is the loop for the test `matchTest`. -/
theorem grindLoop_eq_permLoop (h : String) (creator size searchedIndex : Nat) :
    ∀ (fuel x : Nat) (txids : List String),
      grindLoop h creator size searchedIndex fuel x txids =
        permLoop (matchTest h creator size searchedIndex) fuel txids := by
  intro fuel
  induction fuel with
  | zero => intro x txids; rfl
  | succ fuel ih =>
    intro x txids
    simp only [grindLoop, permLoop, scanInto_getBlockHash, matchTest, decide_eq_true_eq]
    split_ifs
    · rfl
    · rcases nextPermutation txids with ⟨next, b⟩
      cases b with
      | true => simp only [ih]
      | false => rfl

/-- Unfolding of `grind` where it is defined: the result is assembled from the outcome of
the permutation loop, which ends within its budget. -/
theorem grind_eq_some {ipAddresses : List String} {selectedAddress : String} {inp : GrindInput}
    {lastBlock : Block} (hfleet : ipAddresses ≠ [])
    (hchain : inp.blockchain.getLast? = some lastBlock)
    (hmem : selectedAddress ∈ inp.stakepool) :
    ∃ (r : GrindResult) (lr : LoopResult String),
      grind ipAddresses selectedAddress inp = some r ∧
      permLoop (matchTest (getBlockHash lastBlock.prevBlockHash lastBlock.transactions)
          r.creator inp.stakepool.length (inp.stakepool.indexOf selectedAddress))
        (candidates inp).length.factorial ((candidates inp).insertionSort (· ≤ ·)) = some lr ∧
      r.creator = (creatorLoop inp.stakepool.length inp.oldStakepool (0, inp.x0)).1 ∧
      r.tested = lr.tested ∧ r.txids = lr.txids ∧ r.successfulGrind = lr.successfulGrind ∧
      lr.tested.length ≤ (candidates inp).length.factorial ∧
      r.sent.filter isProposeBlock =
        ipAddresses.map (fun ipAddress => ⟨proposeBlockCommand r.txids, ipAddress⟩) := by
  obtain ⟨ip0, tl, rfl⟩ := List.exists_cons_of_ne_nil hfleet
  have hlen : ((candidates inp).insertionSort (· ≤ ·)).length = (candidates inp).length :=
    List.length_insertionSort _ _
  obtain ⟨lr, hlr, hlrlen⟩ := permLoop_terminates
    (matchTest (getBlockHash lastBlock.prevBlockHash lastBlock.transactions)
      (creatorLoop inp.stakepool.length inp.oldStakepool (0, inp.x0)).1 inp.stakepool.length
      (inp.stakepool.indexOf selectedAddress))
    (candidates inp).length.factorial ((candidates inp).insertionSort (· ≤ ·))
    (by rw [← hlen]; exact arrangementsAbove_lt_factorial _)
  have hbound : lr.tested.length ≤ (candidates inp).length.factorial := by
    have := arrangementsAbove_lt_factorial ((candidates inp).insertionSort (· ≤ ·))
    rw [hlen] at this
    omega
  have hg : grind (ip0 :: tl) selectedAddress inp = some
      { sent :=
          [⟨"listStakepool", ip0⟩, ⟨"listOldStakepool", ip0⟩, ⟨"printBlockchain", ip0⟩,
           ⟨"listMempool", ip0⟩,
           ⟨"loadCoinbaseTransaction " ++ selectedAddress ++ " " ++ toString inp.timeNow, ip0⟩] ++
          ((ip0 :: tl).drop 1).map (fun ipAddress =>
            ⟨"loadCoinbaseTransaction " ++ selectedAddress ++ " " ++ toString inp.timeNow,
              ipAddress⟩) ++
          (ip0 :: tl).map (fun ipAddress => ⟨proposeBlockCommand lr.txids, ipAddress⟩)
        creator := (creatorLoop inp.stakepool.length inp.oldStakepool (0, inp.x0)).1
        tested := lr.tested
        txids := lr.txids
        successfulGrind := lr.successfulGrind } := by
    simp only [grind, List.head?_cons, hchain, hmem, if_true, grindLoop_eq_permLoop, hlen, hlr,
      Option.map_some']
  refine ⟨_, lr, hg, hlr, rfl, rfl, rfl, rfl, hbound, ?_⟩
  have hq : ∀ (a t ip : String),
      isProposeBlock ⟨"loadCoinbaseTransaction " ++ a ++ " " ++ t, ip⟩ = false := by
    intro a t ip
    simp [isProposeBlock, String.data_append, List.isPrefixOf]
  have hp : ∀ (l : List String) (ip : String),
      isProposeBlock ⟨proposeBlockCommand l, ip⟩ = true := by
    intro l ip
    simp [isProposeBlock, proposeBlockCommand, String.data_append, List.isPrefixOf]
  have h1 : List.filter isProposeBlock
      [⟨"listStakepool", ip0⟩, ⟨"listOldStakepool", ip0⟩, ⟨"printBlockchain", ip0⟩,
       ⟨"listMempool", ip0⟩,
       ⟨"loadCoinbaseTransaction " ++ selectedAddress ++ " " ++ toString inp.timeNow, ip0⟩]
      = [] := by
    rw [List.filter_eq_nil_iff]
    intro m hm
    simp only [List.mem_cons, List.mem_singleton, List.not_mem_nil, or_false] at hm
    rcases hm with rfl | rfl | rfl | rfl | rfl
    · simp [isProposeBlock, List.isPrefixOf]
    · simp [isProposeBlock, List.isPrefixOf]
    · simp [isProposeBlock, List.isPrefixOf]
    · simp [isProposeBlock, List.isPrefixOf]
    · simp [hq]
  have h2 : List.filter isProposeBlock (((ip0 :: tl).drop 1).map (fun ipAddress =>
      (⟨"loadCoinbaseTransaction " ++ selectedAddress ++ " " ++ toString inp.timeNow,
        ipAddress⟩ : Msg))) = [] := by
    rw [List.filter_eq_nil_iff]
    intro m hm
    obtain ⟨ip, _, rfl⟩ := List.mem_map.mp hm
    simp [hq]
  have h3 : List.filter isProposeBlock ((ip0 :: tl).map (fun ipAddress =>
      (⟨proposeBlockCommand lr.txids, ipAddress⟩ : Msg))) =
      (ip0 :: tl).map (fun ipAddress => ⟨proposeBlockCommand lr.txids, ipAddress⟩) := by
    rw [List.filter_eq_self]
    intro m hm
    obtain ⟨ip, _, rfl⟩ := List.mem_map.mp hm
    exact hp _ _
  rw [List.filter_append, List.filter_append, h1, h2, h3]
  rfl

theorem foldl_append_eq (ids : List String) :
    ∀ acc : String, ids.foldl (fun oss t => oss ++ t) acc = acc ++ ids.foldr (· ++ ·) "" := by
  induction ids with
  | nil => intro acc; simp
  | cons t ids ih =>
    intro acc
    simp only [List.foldl_cons, List.foldr_cons, ih, String.append_assoc]

theorem creatorLoop_fst (size : Nat) :
    ∀ (old : List String) (c x : Nat),
      (∀ a ∈ old, (sscanfHex (a.data.take 16)).isSome = true) →
      (creatorLoop size old (c, x)).1 =
        (c + (old.map fun a => hexPrefix a % size).sum) % 2 ^ 32 ∨ old = [] := by
  intro old
  induction old with
  | nil => intro c x _; exact Or.inr rfl
  | cons a old ih =>
    intro c x h
    left
    have ha : scanInto a x = hexPrefix a := by
      obtain ⟨v, hv⟩ := Option.isSome_iff_exists.mp (h a (List.mem_cons_self _ _))
      simp only [hexPrefix, scanInto, hv, Option.getD_some]
    simp only [creatorLoop, ha, List.map_cons, List.sum_cons]
    rcases ih ((c + hexPrefix a % size) % 2 ^ 32) (hexPrefix a)
      (fun b hb => h b (List.mem_cons_of_mem _ hb)) with h1 | h1
    · rw [h1]
      omega
    · subst h1
      simp [creatorLoop]

theorem sum_mod_le (size : Nat) (hs : 0 < size) (f : String → Nat) :
    ∀ old : List String, (old.map fun a => f a % size).sum ≤ old.length * (size - 1) := by
  intro old
  induction old with
  | nil => simp
  | cons a old ih =>
    simp only [List.map_cons, List.sum_cons, List.length_cons]
    have : f a % size < size := Nat.mod_lt _ hs
    have : (old.length + 1) * (size - 1) = old.length * (size - 1) + (size - 1) := by ring
    omega

theorem append_inj_of_length {a b x y : String} (h : a ++ x = b ++ y)
    (hl : a.length = b.length) : a = b ∧ x = y := by
  have hd : a.data ++ x.data = b.data ++ y.data := by
    rw [← String.data_append, ← String.data_append, h]
  have hl' : a.data.length = b.data.length := hl
  obtain ⟨h1, h2⟩ := List.append_inj hd hl'
  exact ⟨String.ext h1, String.ext h2⟩

/-- Ids of one common length can be read back from their concatenation. -/
theorem concat_injective (k : Nat) :
    ∀ (p ids : List String), p.length = ids.length → (∀ t ∈ p, t.length = k) →
      (∀ t ∈ ids, t.length = k) → p.foldr (· ++ ·) "" = ids.foldr (· ++ ·) "" → p = ids := by
  intro p
  induction p with
  | nil =>
    intro ids hlen _ _ _
    exact (List.length_eq_zero.mp hlen.symm).symm
  | cons a p ih =>
    intro ids hlen hp hids h
    cases ids with
    | nil => simp at hlen
    | cons b ids =>
      simp only [List.foldr_cons] at h
      have hab : a.length = b.length :=
        (hp a (List.mem_cons_self _ _)).trans (hids b (List.mem_cons_self _ _)).symm
      obtain ⟨h1, h2⟩ := append_inj_of_length h hab
      rw [h1, ih ids (by simpa using hlen) (fun t ht => hp t (List.mem_cons_of_mem _ ht))
        (fun t ht => hids t (List.mem_cons_of_mem _ ht)) h2]

theorem sscanfHex_lt {str : List Char} {v : Nat} (h : sscanfHex str = some v) :
    v < 2 ^ 32 := by
  unfold sscanfHex at h
  simp only at h
  split_ifs at h <;>
    · simp only [Option.some.injEq] at h
      rw [← h]
      exact Nat.mod_lt _ (by decide)

/-- The number derived from a string fits an unsigned 32-bit integer. -/
theorem hexPrefix_lt (s : String) : hexPrefix s < 2 ^ 32 := by
  unfold hexPrefix scanInto
  cases h : sscanfHex (s.data.take 16) with
  | none => simp
  | some v => simpa using sscanfHex_lt h

/-- The numbers read from a string are fixed by its first 16 characters. -/
theorem prefix_values {s : String} {pre : List Char} (h : s.data.take 16 = pre) :
    hexPrefix s = (sscanfHex pre).getD 0 ∧
    specHexPrefix 8 s =
      (pre.take 8).foldl (fun acc c => 16 * acc + (hexDigitValue c).getD 0) 0 ∧
    specHexPrefix 16 s = pre.foldl (fun acc c => 16 * acc + (hexDigitValue c).getD 0) 0 := by
  subst h
  refine ⟨rfl, ?_, rfl⟩
  simp only [specHexPrefix, List.take_take]
  rfl

/-- The digest is the 64 hexadecimal digits of the final hash state. -/
theorem sha256_eq_render (s : String) :
    sha256 s = ⟨(digestNibbles s).1.map fun n => hexChar n.val⟩ := rfl

theorem sameLengthId_length (i : Fin 58) : (sameLengthId i).length = 58 := by
  show (List.replicate i.val 'a' ++ List.replicate (58 - i.val) 'b').length = 58
  simp only [List.length_append, List.length_replicate]
  omega

theorem sameLengthId_injective : Function.Injective sameLengthId := by
  intro i j h
  have hc : (sameLengthId i).data.count 'a' = (sameLengthId j).data.count 'a' := by rw [h]
  simp only [sameLengthId, List.count_append, List.count_replicate] at hc
  simp at hc
  exact Fin.ext hc

/-- There are more orderings of 58 ids than digests of 64 hexadecimal digits. -/
theorem digest_pigeonhole : (16 : Nat) ^ 64 < Nat.factorial 58 := by decide

/-- Among the orderings of 58 different ids of one length, two different orderings have the
same transactions hash: there are more orderings than digests. -/
theorem exists_reordering_with_same_hash :
    ∃ ids p : List String, (∀ t ∈ ids, t.length = 58) ∧ p.Perm ids ∧ p ≠ ids ∧
      transactionHash p = transactionHash ids := by
  have hcard : Fintype.card (Mathlib.Vector (Fin 16) 64) <
      Fintype.card (Equiv.Perm (Fin 58)) := by
    rw [card_vector, Fintype.card_perm, Fintype.card_fin, Fintype.card_fin]
    exact digest_pigeonhole
  obtain ⟨σ, τ, hne, heq⟩ := Fintype.exists_ne_map_eq_of_card_lt
    (fun σ : Equiv.Perm (Fin 58) =>
      digestNibbles ((idsOf σ).foldl (fun oss t => oss ++ t) "")) hcard
  refine ⟨idsOf τ, idsOf σ, ?_, ?_, ?_, ?_⟩
  · intro t ht
    obtain ⟨i, rfl⟩ := (List.mem_ofFn _ _).mp ht
    exact sameLengthId_length _
  · exact ((Equiv.Perm.ofFn_comp_perm σ sameLengthId).trans
      (Equiv.Perm.ofFn_comp_perm τ sameLengthId).symm)
  · intro h
    have := List.ofFn_injective h
    apply hne
    ext i
    exact congrArg Fin.val (sameLengthId_injective (congrFun this i))
  · have heq' : digestNibbles ((idsOf σ).foldl (fun oss t => oss ++ t) "") =
        digestNibbles ((idsOf τ).foldl (fun oss t => oss ++ t) "") := heq
    simp only [transactionHash, sha256_eq_render, heq']

/-- The first 16 characters of the hash of the block with the ordering `cb`, `m1`. -/
theorem exampleInput_hash :
    (getBlockHash (getBlockHash "00" ["t0"]) ["cb", "m1"]).data.take 16 =
      "2468f83367052a99".data := by
  decide!

/-- The run of `grind` on `exampleInput` for the attacker `bb`. -/
theorem exampleInput_grind :
    (grind exampleFleet "bb" exampleInput).map
        (fun r => (r.creator, r.successfulGrind, r.tested)) =
      some (3, false, [["cb", "m1"], ["m1", "cb"]]) := by
  decide!

/-- The first 16 characters of the hash of the block with the single id `c0`. -/
theorem singleInput_hash :
    (getBlockHash (getBlockHash "00" ["t0"]) ["c0"]).data.take 16 =
      "572ff09f777e4dbc".data := by
  decide!

/-- The run of `grind` on `singleInput` for the attacker `cc`. -/
theorem singleInput_grind_cc :
    (grind exampleFleet "cc" singleInput).map
        (fun r => (r.creator, r.successfulGrind, r.tested, r.txids)) =
      some (3, false, [["c0"]], ["c0"]) := by
  decide!

/-- The run of `grind` on `singleInput` for the attacker `aa`. -/
theorem singleInput_grind_aa :
    (grind exampleFleet "aa" singleInput).map
        (fun r => (r.creator, r.successfulGrind, r.tested, r.txids)) =
      some (3, true, [["c0"]], ["c0"]) := by
  decide!

/-- The accumulator `grind` computes on `accumulatorInput`. -/
theorem accumulatorInput_grind :
    (grind exampleFleet "bb" accumulatorInput).map (fun r => r.creator) = some 5 := by
  decide!

end GrindTheory

section Claims

/-- Where `grind` does not succeed, the ordering left in `txids`, which it broadcasts, is the
sorted candidate list, the first ordering tested; the last ordering tested is its reverse. -/
theorem grind_fallback_is_sorted {ipAddresses : List String} {selectedAddress : String}
    {inp : GrindInput} {r : GrindResult} (hfleet : ipAddresses ≠ [])
    (hmem : selectedAddress ∈ inp.stakepool)
    (hg : grind ipAddresses selectedAddress inp = some r) (hs : r.successfulGrind = false) :
    r.txids = (candidates inp).insertionSort (· ≤ ·) ∧ r.tested.head? = some r.txids ∧
      ∃ last, r.tested.getLast? = some last ∧ r.txids = last.reverse := by
  have hchain : inp.blockchain ≠ [] := by
    intro h
    simp [grind, h] at hg
  obtain ⟨lastBlock, hlast⟩ : ∃ b, inp.blockchain.getLast? = some b :=
    Option.isSome_iff_exists.mp (List.getLast?_isSome.mpr hchain)
  obtain ⟨r', lr, hg', hlr, _, ht, hx, hsg, _, _⟩ := grind_eq_some hfleet hlast hmem
  obtain rfl : r' = r := Option.some.inj (hg'.symm.trans hg)
  obtain ⟨_, _, last, hl1, hl2, hl3⟩ := permLoop_failure hlr (hsg ▸ hs)
  obtain ⟨rest, hrest⟩ := permLoop_tested_head hlr
  have hsorted : r'.txids.Sorted (· ≤ ·) := by
    rw [hx, hl3]
    have : last.reverse.Pairwise (· ≤ ·) := List.pairwise_reverse.mpr hl2
    exact this
  have hperm : r'.txids.Perm ((candidates inp).insertionSort (· ≤ ·)) := by
    rw [hx]
    exact (permLoop_tested_perm hlr).2
  have heq : r'.txids = (candidates inp).insertionSort (· ≤ ·) :=
    List.eq_of_perm_of_sorted hperm hsorted (List.sorted_insertionSort _ _)
  refine ⟨heq, ?_, last, ht ▸ hl1, hx ▸ hl3⟩
  rw [ht, hrest, heq]
  rfl

/-- C2 (the code departs from the claim): with two candidates none of which passes the test,
`grind` tests `cb m1` and then `m1 cb`, is unsuccessful, and broadcasts `cb m1`, the first
ordering tested, not the last one. -/
theorem grind_fallback_broadcasts_first_ordering :
    (grind exampleFleet "bb" exampleInput).map
        (fun r => (r.successfulGrind, r.tested, r.txids, r.sent.filter isProposeBlock)) =
      some (false, [["cb", "m1"], ["m1", "cb"]], ["cb", "m1"],
        [⟨"proposeBlock \x7bcb m1\x7d", "10.0.0.1"⟩, ⟨"proposeBlock \x7bcb m1\x7d", "10.0.0.2"⟩,
         ⟨"proposeBlock \x7bcb m1\x7d", "10.0.0.3"⟩]) := by
  decide!

/-- The decision of `grind` in terms of `hexPrefix`, the number the code reads from a block
hash: where `grind` is defined, it is successful exactly when some permutation of the
candidates passes the test `(creator + hexPrefix (getBlockHash lastBlockHash p) % size) % size
= searchedIndex`; when it is successful, `txids` is the lexicographically smallest such
permutation, it is the last ordering tested, every ordering tested before it failed, and the
`proposeBlock` commands sent list the ids in that order, separated by spaces. -/
theorem grind_success_iff_match (ipAddresses : List String) (selectedAddress : String)
    (inp : GrindInput) (lastBlock : Block) (hfleet : ipAddresses ≠ [])
    (hlast : inp.blockchain.getLast? = some lastBlock)
    (hmem : selectedAddress ∈ inp.stakepool) :
    ∃ r, grind ipAddresses selectedAddress inp = some r ∧
      (r.successfulGrind = true ↔ ∃ p : List String, p.Perm (candidates inp) ∧
        (r.creator + hexPrefix (getBlockHash
            (getBlockHash lastBlock.prevBlockHash lastBlock.transactions) p) %
          inp.stakepool.length) % inp.stakepool.length = inp.stakepool.indexOf selectedAddress) ∧
      (r.successfulGrind = true →
        r.txids.Perm (candidates inp) ∧
        (r.creator + hexPrefix (getBlockHash
            (getBlockHash lastBlock.prevBlockHash lastBlock.transactions) r.txids) %
          inp.stakepool.length) % inp.stakepool.length = inp.stakepool.indexOf selectedAddress ∧
        (∀ p : List String, p.Perm (candidates inp) →
          (r.creator + hexPrefix (getBlockHash
              (getBlockHash lastBlock.prevBlockHash lastBlock.transactions) p) %
            inp.stakepool.length) % inp.stakepool.length = inp.stakepool.indexOf selectedAddress →
          ¬ LexLt p r.txids) ∧
        r.tested.getLast? = some r.txids ∧
        (∀ p ∈ r.tested.dropLast,
          (r.creator + hexPrefix (getBlockHash
              (getBlockHash lastBlock.prevBlockHash lastBlock.transactions) p) %
            inp.stakepool.length) % inp.stakepool.length ≠ inp.stakepool.indexOf selectedAddress) ∧
        r.sent.filter isProposeBlock = ipAddresses.map (fun ipAddress =>
          ⟨"proposeBlock \x7b" ++ " ".intercalate r.txids ++ "\x7d", ipAddress⟩)) := by
  obtain ⟨r, lr, hg, hlr, _, ht, hx, hsg, _, hsent⟩ := grind_eq_some hfleet hlast hmem
  have hsortperm := List.perm_insertionSort (· ≤ ·) (candidates inp)
  have hmin : ∀ p : List String, p.Perm (candidates inp) →
      ¬ LexLt p ((candidates inp).insertionSort (· ≤ ·)) := fun p hp =>
    not_lexLt_of_sorted_le (List.sorted_insertionSort _ _) (hp.trans hsortperm.symm)
  have htest : ∀ p : List String,
      matchTest (getBlockHash lastBlock.prevBlockHash lastBlock.transactions) r.creator
        inp.stakepool.length (inp.stakepool.indexOf selectedAddress) p = true ↔
      (r.creator + hexPrefix (getBlockHash
          (getBlockHash lastBlock.prevBlockHash lastBlock.transactions) p) %
        inp.stakepool.length) % inp.stakepool.length = inp.stakepool.indexOf selectedAddress := by
    intro p
    simp only [matchTest, decide_eq_true_eq]
  have hsucc : r.successfulGrind = true →
      r.txids.Perm (candidates inp) ∧
      (r.creator + hexPrefix (getBlockHash
          (getBlockHash lastBlock.prevBlockHash lastBlock.transactions) r.txids) %
        inp.stakepool.length) % inp.stakepool.length = inp.stakepool.indexOf selectedAddress ∧
      (∀ p : List String, p.Perm (candidates inp) →
        (r.creator + hexPrefix (getBlockHash
            (getBlockHash lastBlock.prevBlockHash lastBlock.transactions) p) %
          inp.stakepool.length) % inp.stakepool.length = inp.stakepool.indexOf selectedAddress →
        ¬ LexLt p r.txids) ∧
      r.tested.getLast? = some r.txids ∧
      (∀ p ∈ r.tested.dropLast,
        (r.creator + hexPrefix (getBlockHash
            (getBlockHash lastBlock.prevBlockHash lastBlock.transactions) p) %
          inp.stakepool.length) % inp.stakepool.length ≠ inp.stakepool.indexOf selectedAddress) ∧
      r.sent.filter isProposeBlock = ipAddresses.map (fun ipAddress =>
        ⟨"proposeBlock \x7b" ++ " ".intercalate r.txids ++ "\x7d", ipAddress⟩) := by
    intro hs
    obtain ⟨h1, h2, h3, h4⟩ := permLoop_success hlr (hsg ▸ hs)
    refine ⟨?_, ?_, ?_, ?_, ?_, hsent⟩
    · rw [hx]
      exact (permLoop_tested_perm hlr).2.trans hsortperm
    · rw [hx]
      exact (htest _).mp h1
    · intro p hp hpass
      rw [hx]
      exact h4 p (hp.trans hsortperm.symm) (hmin p hp) ((htest p).mpr hpass)
    · rw [ht, hx]
      exact h2
    · intro p hp hpass
      rw [ht] at hp
      have := h3 p hp
      rw [(htest p).mpr hpass] at this
      exact absurd this (by simp)
  refine ⟨r, hg, ⟨fun hs => ⟨r.txids, (hsucc hs).1, (hsucc hs).2.1⟩, ?_⟩, hsucc⟩
  rintro ⟨p, hp, hpass⟩
  by_contra hs
  have hs' : lr.successfulGrind = false := by
    rw [← hsg]
    simpa using hs
  obtain ⟨h1, h2, _⟩ := permLoop_failure hlr hs'
  have := h1 p (h2 p (hp.trans hsortperm.symm) (hmin p hp))
  rw [(htest p).mpr hpass] at this
  exact absurd this (by simp)

/-- The second ordering tested passes for `exampleInput2` with `"cc"` as the attacker. -/
theorem grind_example_success :
    (grind exampleFleet "cc" exampleInput2).map
        (fun r => (r.successfulGrind, r.tested, r.txids)) =
      some (true, [["cb", "m1", "m2"], ["cb", "m2", "m1"]], ["cb", "m2", "m1"]) := by
  decide!

/-- C3 (the code departs from the claim): for `exampleInput` and the attacker `bb` (index 1 of
a stake pool of size 3, accumulator 3) the hash of the block with the ordering `cb`, `m1`
starts with `2468f83367052a99`. The number of its first 8 characters, `0x2468f833`, and the
number of its first 16 characters both pass the test, `(3 + n % 3) % 3 = 1`, so a permutation
of the candidates satisfies the condition; the code tests the number `0x67052a99` of the
characters 9 to 16, which fails, and after the second ordering `grind` is marked
unsuccessful. The accumulator 3 is the same under all three readings. -/
theorem grind_rejects_matching_ordering :
    ["cb", "m1"].Perm (candidates exampleInput) ∧
    exampleInput.stakepool.length = 3 ∧ exampleInput.stakepool.indexOf "bb" = 1 ∧
    (exampleInput.oldStakepool.map (fun a => specHexPrefix 8 a % 3)).sum = 3 ∧
    (exampleInput.oldStakepool.map (fun a => specHexPrefix 16 a % 3)).sum = 3 ∧
    (getBlockHash (getBlockHash "00" ["t0"]) ["cb", "m1"]).data.take 16 =
      "2468f83367052a99".data ∧
    specHexPrefix 8 (getBlockHash (getBlockHash "00" ["t0"]) ["cb", "m1"]) = 0x2468f833 ∧
    specHexPrefix 16 (getBlockHash (getBlockHash "00" ["t0"]) ["cb", "m1"]) =
      0x2468f83367052a99 ∧
    (3 + 0x2468f833 % 3) % 3 = 1 ∧ (3 + 0x2468f83367052a99 % 3) % 3 = 1 ∧
    hexPrefix (getBlockHash (getBlockHash "00" ["t0"]) ["cb", "m1"]) = 0x67052a99 ∧
    (3 + 0x67052a99 % 3) % 3 = 0 ∧
    (grind exampleFleet "bb" exampleInput).map
        (fun r => (r.creator, r.successfulGrind, r.tested)) =
      some (3, false, [["cb", "m1"], ["m1", "cb"]]) := by
  obtain ⟨h1, h2, h3⟩ := prefix_values exampleInput_hash
  refine ⟨by decide, by decide, by decide, by decide!, by decide!, exampleInput_hash, ?_, ?_,
    by decide, by decide, ?_, by decide, exampleInput_grind⟩
  · rw [h2]; decide!
  · rw [h3]; decide!
  · rw [h1]; decide!

/-- C4: where no permutation of the candidates passes the test, the orderings tested by
`grind` start with the sorted candidate list, are strictly increasing in lexicographic order
(so none is visited twice), and are exactly the permutations of the candidates. -/
theorem grind_tests_all_permutations (ipAddresses : List String) (selectedAddress : String)
    (inp : GrindInput) (lastBlock : Block) (hfleet : ipAddresses ≠ [])
    (hlast : inp.blockchain.getLast? = some lastBlock)
    (hmem : selectedAddress ∈ inp.stakepool)
    (hnone : ∀ p : List String, p.Perm (candidates inp) →
      (((creatorLoop inp.stakepool.length inp.oldStakepool (0, inp.x0)).1 +
          hexPrefix (getBlockHash
            (getBlockHash lastBlock.prevBlockHash lastBlock.transactions) p) %
        inp.stakepool.length) % inp.stakepool.length ≠ inp.stakepool.indexOf selectedAddress)) :
    ∃ r, grind ipAddresses selectedAddress inp = some r ∧ r.successfulGrind = false ∧
      r.tested.head? = some ((candidates inp).insertionSort (· ≤ ·)) ∧
      r.tested.Pairwise LexLt ∧
      ∀ p : List String, p ∈ r.tested ↔ p.Perm (candidates inp) := by
  obtain ⟨r, lr, hg, hlr, hc, ht, hx, hsg, _, _⟩ := grind_eq_some hfleet hlast hmem
  have hsortperm := List.perm_insertionSort (· ≤ ·) (candidates inp)
  have hfail : lr.successfulGrind = false := by
    by_contra hs
    have hs' : lr.successfulGrind = true := by simpa using hs
    obtain ⟨h1, _, _, _⟩ := permLoop_success hlr hs'
    have hp := ((permLoop_tested_perm hlr).2).trans hsortperm
    simp only [matchTest, decide_eq_true_eq] at h1
    rw [hc] at h1
    exact hnone _ hp h1
  obtain ⟨_, h2, _⟩ := permLoop_failure hlr hfail
  obtain ⟨rest, hrest⟩ := permLoop_tested_head hlr
  refine ⟨r, hg, hsg.trans hfail, ?_, ?_, fun p => ⟨fun hp => ?_, fun hp => ?_⟩⟩
  · rw [ht, hrest]
    rfl
  · rw [ht]
    exact permLoop_tested_sorted hlr
  · rw [ht] at hp
    exact ((permLoop_tested_perm hlr).1 p hp).trans hsortperm
  · rw [ht]
    exact h2 p (hp.trans hsortperm.symm)
      (not_lexLt_of_sorted_le (List.sorted_insertionSort _ _) (hp.trans hsortperm.symm))

theorem grind_tests_all_permutations_witness :
    exampleFleet ≠ [] ∧ exampleInput.blockchain.getLast? = some ⟨"00", ["t0"]⟩ ∧
    "bb" ∈ exampleInput.stakepool ∧
    (∀ p : List String, p.Perm (candidates exampleInput) →
      (((creatorLoop exampleInput.stakepool.length exampleInput.oldStakepool
            (0, exampleInput.x0)).1 +
          hexPrefix (getBlockHash (getBlockHash "00" ["t0"]) p) %
        exampleInput.stakepool.length) % exampleInput.stakepool.length ≠
          exampleInput.stakepool.indexOf "bb")) ∧
    ∃ r, grind exampleFleet "bb" exampleInput = some r ∧ r.successfulGrind = false ∧
      r.tested.head? = some ((candidates exampleInput).insertionSort (· ≤ ·)) ∧
      r.tested.Pairwise LexLt ∧
      ∀ p : List String, p ∈ r.tested ↔ p.Perm (candidates exampleInput) :=
  have hnone : ∀ p : List String, p.Perm (candidates exampleInput) →
      (((creatorLoop exampleInput.stakepool.length exampleInput.oldStakepool
            (0, exampleInput.x0)).1 +
          hexPrefix (getBlockHash (getBlockHash "00" ["t0"]) p) %
        exampleInput.stakepool.length) % exampleInput.stakepool.length ≠
          exampleInput.stakepool.indexOf "bb") := fun p hp =>
    (by decide! : ∀ q ∈ (candidates exampleInput).permutations,
      (((creatorLoop exampleInput.stakepool.length exampleInput.oldStakepool
            (0, exampleInput.x0)).1 +
          hexPrefix (getBlockHash (getBlockHash "00" ["t0"]) q) %
        exampleInput.stakepool.length) % exampleInput.stakepool.length ≠
          exampleInput.stakepool.indexOf "bb")) p (List.mem_permutations.mpr hp)
  ⟨by decide, by decide, by decide, hnone,
    grind_tests_all_permutations exampleFleet "bb" exampleInput ⟨"00", ["t0"]⟩ (by decide)
      (by decide) (by decide) hnone⟩

/-- The accumulator of `grind` in terms of `hexPrefix`, the number the code reads from an
address: where every address of the old stake pool starts with a hexadecimal number, the value
of `creator` computed by `grind` is the sum over the old stake pool of
`hexPrefix address % size`, `size` the size of the current stake pool, reduced modulo `2 ^ 32`;
for a stake pool of size 3 and an old stake pool of three entries it is that sum itself. -/
theorem grind_creator_accumulator (ipAddresses : List String) (selectedAddress : String)
    (inp : GrindInput) (hfleet : ipAddresses ≠ []) (hchain : inp.blockchain ≠ [])
    (hmem : selectedAddress ∈ inp.stakepool)
    (hhex : ∀ a ∈ inp.oldStakepool, (sscanfHex (a.data.take 16)).isSome = true) :
    ∃ r, grind ipAddresses selectedAddress inp = some r ∧
      r.creator =
        (inp.oldStakepool.map fun a => hexPrefix a % inp.stakepool.length).sum % 2 ^ 32 ∧
      (inp.stakepool.length = 3 → inp.oldStakepool.length = 3 →
        r.creator = (inp.oldStakepool.map fun a => hexPrefix a % 3).sum) := by
  obtain ⟨lastBlock, hlast⟩ : ∃ b, inp.blockchain.getLast? = some b :=
    Option.isSome_iff_exists.mp (List.getLast?_isSome.mpr hchain)
  obtain ⟨r, lr, hg, _, hc, _⟩ := grind_eq_some hfleet hlast hmem
  have hsum : r.creator =
      (inp.oldStakepool.map fun a => hexPrefix a % inp.stakepool.length).sum % 2 ^ 32 := by
    rw [hc]
    rcases creatorLoop_fst inp.stakepool.length inp.oldStakepool 0 inp.x0 hhex with h | h
    · rw [h, Nat.zero_add]
    · rw [h]
      rfl
  refine ⟨r, hg, hsum, fun h3 ho => ?_⟩
  rw [hsum, h3]
  have := sum_mod_le 3 (by decide) hexPrefix inp.oldStakepool
  rw [ho] at this
  exact Nat.mod_eq_of_lt (by omega)

/-- C5 (the code departs from the claim): for a stake pool of size 3 and the old stake pool
`0000000100000002`, `0000000200000002`, `0000000100000001`, the numbers of the first 8
characters are 1, 2, 1, with the sum 4 of their remainders modulo 3, and the numbers of the
first 16 characters give the sum 3; the code reads 2, 2, 1, the numbers of the characters 9 to
16, and the accumulator `grind` computes is 5. -/
theorem grind_creator_differs_from_prefix_sum :
    accumulatorInput.stakepool.length = 3 ∧ accumulatorInput.oldStakepool.length = 3 ∧
    accumulatorInput.oldStakepool.map (fun a => specHexPrefix 8 a) = [1, 2, 1] ∧
    (accumulatorInput.oldStakepool.map (fun a => specHexPrefix 8 a % 3)).sum = 4 ∧
    accumulatorInput.oldStakepool.map (fun a => specHexPrefix 16 a) =
      [0x100000002, 0x200000002, 0x100000001] ∧
    (accumulatorInput.oldStakepool.map (fun a => specHexPrefix 16 a % 3)).sum = 3 ∧
    accumulatorInput.oldStakepool.map hexPrefix = [2, 2, 1] ∧
    (creatorLoop 3 accumulatorInput.oldStakepool (0, accumulatorInput.x0)).1 = 5 ∧
    (grind exampleFleet "bb" accumulatorInput).map (fun r => r.creator) = some 5 := by
  refine ⟨by decide, by decide, ?_, ?_, ?_, ?_, ?_, ?_, accumulatorInput_grind⟩ <;> decide!

/-- C6: `getBlockHash` of a previous-block hash and a list of transaction ids is the digest of
the previous-block hash followed by the digest of the ids concatenated in list order; for the
empty list the inner digest is that of the empty string. -/
theorem getBlockHash_eq (prevBlockHash : String) (transactions : List String) :
    getBlockHash prevBlockHash transactions =
        sha256 (prevBlockHash ++ sha256 (transactions.foldr (· ++ ·) "")) ∧
      getBlockHash prevBlockHash [] = sha256 (prevBlockHash ++ sha256 "") := by
  refine ⟨?_, rfl⟩
  simp only [getBlockHash, foldl_append_eq, String.empty_append]

end Claims

section DriverTheory

theorem probeLoop_spec (e : String) (answer : Nat → String) :
    ∀ (rest : List String) (i : Nat),
      ((probeLoop e answer i rest).2 = true ↔ ∀ k < rest.length, answer (i + k) = e) ∧
      ((probeLoop e answer i rest).2 = true →
        (probeLoop e answer i rest).1 = rest.map fun ip => ⟨"countNextValidator", ip⟩) ∧
      ((probeLoop e answer i rest).2 = false → ∃ k < rest.length,
        (probeLoop e answer i rest).1 =
          (rest.take (k + 1)).map fun ip => ⟨"countNextValidator", ip⟩) := by
  intro rest
  induction rest with
  | nil => intro i; simp [probeLoop]
  | cons ip rest ih =>
    intro i
    obtain ⟨h1, h2, h3⟩ := ih (i + 1)
    by_cases ha : answer i = e
    · have hstep : probeLoop e answer i (ip :: rest) =
          (⟨"countNextValidator", ip⟩ :: (probeLoop e answer (i + 1) rest).1,
            (probeLoop e answer (i + 1) rest).2) := by
        simp [probeLoop, ha]
      rw [hstep]
      refine ⟨?_, ?_, ?_⟩
      · simp only [h1, List.length_cons]
        constructor
        · intro h k hk
          cases k with
          | zero => simpa using ha
          | succ k =>
            have := h k (by omega)
            rw [show i + (k + 1) = i + 1 + k by omega]
            exact this
        · intro h k hk
          have := h (k + 1) (by omega)
          rw [show i + 1 + k = i + (k + 1) by omega]
          exact this
      · intro h
        simp only [List.map_cons, h2 h]
      · intro h
        obtain ⟨k, hk, hsent⟩ := h3 h
        refine ⟨k + 1, by simp only [List.length_cons]; omega, ?_⟩
        simp only [hsent, List.take_succ_cons, List.map_cons]
    · have hstep : probeLoop e answer i (ip :: rest) = ([⟨"countNextValidator", ip⟩], false) := by
        simp [probeLoop, ha]
      rw [hstep]
      refine ⟨?_, ?_, ?_⟩
      · simp only [Bool.false_eq_true, false_iff, not_forall]
        exact ⟨0, by simp, by simpa using ha⟩
      · intro h
        simp at h
      · intro _
        exact ⟨0, by simp, by simp⟩

theorem probeLoop_congr (e : String) {answer answer' : Nat → String} :
    ∀ (rest : List String) (i : Nat), (∀ k < rest.length, answer' (i + k) = answer (i + k)) →
      probeLoop e answer' i rest = probeLoop e answer i rest := by
  intro rest
  induction rest with
  | nil => intro i _; rfl
  | cons ip rest ih =>
    intro i h
    have h0 : answer' i = answer i := by simpa using h 0 (by simp)
    have hrec := ih (i + 1) (fun k hk => by
      have := h (k + 1) (by simp only [List.length_cons]; omega)
      rw [show i + 1 + k = i + (k + 1) by omega]
      exact this)
    simp only [probeLoop, h0, hrec]

theorem consensusRounds_running_of_succ {ipAddresses vulncoinAddresses : List String}
    {inputs : Nat → RoundInput} {i : Nat}
    (h : (consensusRounds ipAddresses vulncoinAddresses inputs (i + 1)).status =
      RunStatus.running) :
    (consensusRounds ipAddresses vulncoinAddresses inputs i).status = RunStatus.running := by
  by_contra hne
  have : consensusRounds ipAddresses vulncoinAddresses inputs (i + 1) =
      consensusRounds ipAddresses vulncoinAddresses inputs i := by
    rw [consensusRounds]
    cases hs : (consensusRounds ipAddresses vulncoinAddresses inputs i).status with
    | running => exact absurd hs hne
    | exited status => rfl
    | undefined => rfl
  rw [this] at h
  exact hne h

theorem consensusRounds_running_of_le {ipAddresses vulncoinAddresses : List String}
    {inputs : Nat → RoundInput} {M : Nat}
    (h : (consensusRounds ipAddresses vulncoinAddresses inputs M).status = RunStatus.running) :
    ∀ i ≤ M, (consensusRounds ipAddresses vulncoinAddresses inputs i).status =
      RunStatus.running := by
  induction M with
  | zero =>
    intro i hi
    rw [Nat.le_zero.mp hi]
    exact h
  | succ M ih =>
    intro i hi
    rcases Nat.lt_or_ge i (M + 1) with hlt | hge
    · exact ih (consensusRounds_running_of_succ h) i (by omega)
    · rw [show i = M + 1 by omega]
      exact h

theorem consensusRounds_sum {ipAddresses vulncoinAddresses : List String}
    {inputs : Nat → RoundInput} :
    ∀ i : Nat, i < 2 ^ 64 →
      (consensusRounds ipAddresses vulncoinAddresses inputs i).status = RunStatus.running →
      (consensusRounds ipAddresses vulncoinAddresses inputs i).attackerTotal +
        (consensusRounds ipAddresses vulncoinAddresses inputs i).networkTotal = i := by
  intro i
  induction i with
  | zero => intro _ _; rfl
  | succ i ih =>
    intro hi h
    have hprev := consensusRounds_running_of_succ h
    have hsum := ih (by omega) hprev
    rw [consensusRounds] at h ⊢
    simp only [hprev] at h ⊢
    cases hr : (consensusRound ipAddresses vulncoinAddresses (inputs i)).2 with
    | attackerBlock =>
      simp only [hr]
      omega
    | networkBlock =>
      simp only [hr]
      omega
    | exited status => simp [hr] at h
    | undefined => simp [hr] at h

/-- What the validator probe does for a non-empty fleet. -/
theorem validatorProbe_spec (ipAddresses : List String) (answer : Nat → String)
    (hfleet : ipAddresses ≠ []) :
    ∃ r, validatorProbe ipAddresses answer = some r ∧
      (r.exitStatus = none ↔ ∀ i < ipAddresses.length, answer i = answer 0) ∧
      (r.exitStatus = none →
        r.sent = ipAddresses.map fun ip => ⟨"countNextValidator", ip⟩) ∧
      (r.exitStatus ≠ none → r.exitStatus = some 1 ∧
        ∃ k ≤ ipAddresses.length,
          r.sent = ((ipAddresses.take k).map fun ip => ⟨"countNextValidator", ip⟩) ++
            stopServers ipAddresses) ∧
      (∀ answer' : Nat → String, (∀ i < ipAddresses.length, answer' i = answer i) →
        validatorProbe ipAddresses answer' = some r) := by
  obtain ⟨ip0, rest, rfl⟩ := List.exists_cons_of_ne_nil hfleet
  obtain ⟨h1, h2, h3⟩ := probeLoop_spec (answer 0) answer rest 1
  have hall : (∀ k < rest.length, answer (1 + k) = answer 0) ↔
      ∀ i < (ip0 :: rest).length, answer i = answer 0 := by
    simp only [List.length_cons]
    constructor
    · intro h i hi
      cases i with
      | zero => rfl
      | succ i =>
        have := h i (by omega)
        rw [show 1 + i = i + 1 by omega] at this
        exact this
    · intro h k hk
      exact h (1 + k) (by omega)
  have hcongr : ∀ answer' : Nat → String,
      (∀ i < (ip0 :: rest).length, answer' i = answer i) →
      validatorProbe (ip0 :: rest) answer' = validatorProbe (ip0 :: rest) answer := by
    intro answer' h
    have h0 : answer' 0 = answer 0 := h 0 (by simp)
    have := probeLoop_congr (answer 0) rest 1 (fun k hk =>
      h (1 + k) (by simp only [List.length_cons]; omega))
    simp only [validatorProbe, h0, this]
  cases hr : (probeLoop (answer 0) answer 1 rest).2 with
  | true =>
    have hv : validatorProbe (ip0 :: rest) answer =
        some ⟨⟨"countNextValidator", ip0⟩ :: (probeLoop (answer 0) answer 1 rest).1,
          answer 0, none⟩ := by
      simp only [validatorProbe, hr, if_true]
    refine ⟨_, hv, ?_, ?_, ?_, fun answer' h => (hcongr answer' h).trans hv⟩
    · simp only [true_iff]
      exact hall.mp (h1.mp hr)
    · intro _
      simp only [h2 hr, List.map_cons]
    · intro h
      exact absurd rfl h
  | false =>
    have hv : validatorProbe (ip0 :: rest) answer =
        some ⟨⟨"countNextValidator", ip0⟩ :: (probeLoop (answer 0) answer 1 rest).1 ++
          stopServers (ip0 :: rest), answer 0, some 1⟩ := by
      simp only [validatorProbe, hr, Bool.false_eq_true, if_false]
    refine ⟨_, hv, ?_, ?_, ?_, fun answer' h => (hcongr answer' h).trans hv⟩
    · simp only [reduceCtorEq, false_iff]
      intro h
      have := h1.mpr (hall.mpr h)
      rw [hr] at this
      exact absurd this (by simp)
    · intro h
      simp at h
    · intro _
      obtain ⟨k, hk, hsent⟩ := h3 hr
      refine ⟨rfl, k + 2, by simp only [List.length_cons]; omega, ?_⟩
      simp only [hsent, List.take_succ_cons, List.map_cons, List.cons_append]

theorem validatorProbe_some {ipAddresses : List String} {answer : Nat → String}
    {r : ProbeResult} (h : validatorProbe ipAddresses answer = some r) :
    ipAddresses ≠ [] ∧ r.expectedCreator = answer 0 := by
  cases ipAddresses with
  | nil => simp [validatorProbe] at h
  | cons ip0 rest =>
    refine ⟨List.cons_ne_nil _ _, ?_⟩
    simp only [validatorProbe] at h
    split_ifs at h <;>
      · simp only [Option.some.injEq] at h
        subst h
        rfl

theorem consensusRound_probe_fails {ipAddresses vulncoinAddresses : List String}
    {inp : RoundInput} {fanOut : List Msg} {probe : ProbeResult} {attacker : String}
    {status : Nat}
    (hf : createTransactions ipAddresses vulncoinAddresses inp.scripts = some fanOut)
    (hp : validatorProbe ipAddresses inp.nextValidator = some probe)
    (ha : vulncoinAddresses.head? = some attacker) (he : probe.exitStatus = some status) :
    consensusRound ipAddresses vulncoinAddresses inp =
      (fanOut ++ probe.sent, RoundOutcome.exited status) := by
  simp only [consensusRound, hf, hp, ha, he]

/-- The commands `grind` sends: four queries and the new coinbase transaction to node 0, the
coinbase transaction to the other nodes, and the block to every node. -/
theorem grind_sent {ipAddresses : List String} {selectedAddress : String} {inp : GrindInput}
    {r : GrindResult} (h : grind ipAddresses selectedAddress inp = some r) :
    ∃ ip0, ipAddresses.head? = some ip0 ∧
      r.sent =
        [⟨"listStakepool", ip0⟩, ⟨"listOldStakepool", ip0⟩, ⟨"printBlockchain", ip0⟩,
         ⟨"listMempool", ip0⟩,
         ⟨"loadCoinbaseTransaction " ++ selectedAddress ++ " " ++ toString inp.timeNow, ip0⟩] ++
        (ipAddresses.drop 1).map (fun ipAddress =>
          ⟨"loadCoinbaseTransaction " ++ selectedAddress ++ " " ++ toString inp.timeNow,
            ipAddress⟩) ++
        ipAddresses.map (fun ipAddress => ⟨proposeBlockCommand r.txids, ipAddress⟩) := by
  unfold grind at h
  split at h
  · next ip0 lastBlock hip hlast =>
    split_ifs at h with hmem
    simp only [Option.map_eq_some'] at h
    obtain ⟨lr, _, rfl⟩ := h
    exact ⟨ip0, hip, rfl⟩
  · simp at h

theorem grind_sent_not_count {ipAddresses : List String} {selectedAddress : String}
    {inp : GrindInput} {r : GrindResult} (h : grind ipAddresses selectedAddress inp = some r) :
    ∀ m ∈ r.sent, isCountNextValidator m = false := by
  obtain ⟨ip0, _, hsent⟩ := grind_sent h
  intro m hm
  rw [hsent] at hm
  simp only [List.mem_append, List.mem_cons, List.mem_singleton, List.not_mem_nil, or_false,
    List.mem_map] at hm
  rcases hm with ((rfl | rfl | rfl | rfl | rfl) | ⟨ip, _, rfl⟩) | ⟨ip, _, rfl⟩ <;>
    simp [isCountNextValidator, proposeBlockCommand, String.data_append, List.isPrefixOf]

theorem generateBlockTo_not_count {expectedCreator : String}
    {ipAddresses vulnCoinAddresses : List String} {inp : BlockToInput} {sent : List Msg}
    (h : generateBlockTo expectedCreator ipAddresses vulnCoinAddresses inp = some sent) :
    ∀ m ∈ sent, isCountNextValidator m = false := by
  unfold generateBlockTo at h
  split_ifs at h with hmem
  split at h
  · next creatorIp ip0 _ _ =>
    simp only [Option.some.injEq] at h
    subst h
    intro m hm
    simp only [List.mem_append, List.mem_cons, List.mem_singleton, List.not_mem_nil, or_false,
      List.mem_flatMap] at hm
    rcases hm with (rfl | rfl | rfl) | ⟨ip, _, rfl | rfl⟩ <;>
      simp [isCountNextValidator, String.data_append, List.isPrefixOf]
  · simp at h

theorem createStakes_not_count (ipAddresses : List String) (unspentOutputs : Nat → List Utxo) :
    ∀ m ∈ createStakes ipAddresses unspentOutputs, isCountNextValidator m = false := by
  intro m hm
  simp only [createStakes, List.mem_flatMap, List.mem_cons] at hm
  obtain ⟨node, _, rfl | hm⟩ := hm
  · simp [isCountNextValidator, List.isPrefixOf]
  · split at hm
    · simp at hm
    · obtain ⟨ip, _, rfl⟩ := List.mem_map.mp hm
      simp [isCountNextValidator, String.data_append, List.isPrefixOf]

theorem transactionLoop_not_stake (ipAddress : String)
    (receiversIpAddresses addresses : List String) :
    ∀ (steps : List TxStep) (lastReceiver : Nat) (unspentOutputs : List Utxo)
      (sent : List Msg),
      transactionLoop ipAddress receiversIpAddresses addresses steps lastReceiver
        unspentOutputs = some sent → ∀ m ∈ sent, isStake m = false := by
  intro steps
  induction steps with
  | nil =>
    intro lastReceiver unspentOutputs sent h
    simp only [transactionLoop] at h
    split_ifs at h
    simp only [Option.some.injEq] at h
    subst h
    simp
  | cons st steps ih =>
    intro lastReceiver unspentOutputs sent h
    simp only [transactionLoop] at h
    split at h
    · next u v tl =>
      split at h
      · simp at h
      · next randomReceiver _ =>
        split at h
        · next receiver rest _ hrest =>
          simp only [Option.some.injEq] at h
          subst h
          intro m hm
          simp only [List.mem_append, List.mem_cons, List.mem_singleton, List.not_mem_nil,
            or_false, List.mem_map] at hm
          rcases hm with ((rfl | rfl) | ⟨ip, _, rfl⟩) | rfl | hm
          · simp [isStake, String.data_append, List.isPrefixOf]
          · simp [isStake, String.data_append, List.isPrefixOf]
          · simp [isStake, String.data_append, List.isPrefixOf]
          · simp [isStake, List.isPrefixOf]
          · exact ih _ _ _ hrest m hm
        · simp at h
    · simp only [Option.some.injEq] at h
      subst h
      simp

theorem createTransactionsFrom_not_stake (ipAddresses addresses : List String)
    (scripts : Nat → TxScript) :
    ∀ (rest : List String) (i : Nat) (sent : List Msg),
      createTransactionsFrom ipAddresses addresses scripts i rest = some sent →
      ∀ m ∈ sent, isStake m = false := by
  intro rest
  induction rest with
  | nil =>
    intro i sent h
    simp only [createTransactionsFrom, Option.some.injEq] at h
    subst h
    simp
  | cons ip rest ih =>
    intro i sent h
    simp only [createTransactionsFrom] at h
    split at h
    · next here later hhere hlater =>
      simp only [Option.some.injEq] at h
      subst h
      intro m hm
      simp only [List.cons_append, List.mem_cons, List.mem_append] at hm
      rcases hm with rfl | hm | hm
      · simp [isStake, List.isPrefixOf]
      · exact transactionLoop_not_stake _ _ _ _ _ _ _ hhere m hm
      · exact ih _ _ hlater m hm
    · simp at h

/-- The start-up loop entered with `timeoutCnt ≤ 5` ends within `6 - timeoutCnt` evaluations
of its condition: either every evaluation up to `timeoutCnt = 5` finds a node not ready and
the process stops the nodes and exits with status 1, or the first evaluation that finds all
nodes ready ends the loop. -/
theorem waitForServers_spec (ipAddresses : List String) (reply : Nat → Nat → String) :
    ∀ (fuel timeoutCnt : Nat), timeoutCnt ≤ 5 → 6 ≤ timeoutCnt + fuel →
      ∃ r, waitForServers ipAddresses reply fuel timeoutCnt = some r ∧
        ((r.exitStatus = some 1 ∧ r.sent = stopServers ipAddresses ∧
            r.polls.length = 6 - timeoutCnt ∧
            ∀ k, timeoutCnt ≤ k → k ≤ 5 → (pollServers ipAddresses (reply k)).2 = true) ∨
          (r.exitStatus = none ∧ r.sent = [] ∧
            ∃ k, timeoutCnt ≤ k ∧ k ≤ 5 ∧ r.polls.length = k + 1 - timeoutCnt ∧
              (pollServers ipAddresses (reply k)).2 = false ∧
              ∀ j, timeoutCnt ≤ j → j < k → (pollServers ipAddresses (reply j)).2 = true)) := by
  intro fuel
  induction fuel with
  | zero => intro cnt h1 h2; omega
  | succ fuel ih =>
    intro cnt h1 h2
    simp only [waitForServers]
    cases hp : (pollServers ipAddresses (reply cnt)).2 with
    | false =>
      refine ⟨⟨[(pollServers ipAddresses (reply cnt)).1], [], none⟩, by simp,
        Or.inr ⟨rfl, rfl, cnt, le_rfl, h1, by simp, hp, ?_⟩⟩
      intro j hj1 hj2
      omega
    | true =>
      by_cases h5 : cnt = 5
      · refine ⟨⟨[(pollServers ipAddresses (reply cnt)).1], stopServers ipAddresses, some 1⟩,
          by simp [h5], Or.inl ⟨rfl, rfl, by simp [h5], ?_⟩⟩
        intro k hk1 hk2
        rw [show k = cnt by omega]
        exact hp
      · obtain ⟨r, hr, hcase⟩ := ih (cnt + 1) (by omega) (by omega)
        refine ⟨⟨(pollServers ipAddresses (reply cnt)).1 :: r.polls, r.sent, r.exitStatus⟩,
          by simp [h5, hr], ?_⟩
        rcases hcase with ⟨he, hs, hl, hall⟩ | ⟨he, hs, k, hk1, hk2, hl, hk, hall⟩
        · refine Or.inl ⟨he, hs, by simp only [List.length_cons, hl]; omega, ?_⟩
          intro k hk1 hk2
          rcases Nat.eq_or_lt_of_le hk1 with rfl | hlt
          · exact hp
          · exact hall k hlt hk2
        · refine Or.inr ⟨he, hs, k, by omega, hk2,
            by simp only [List.length_cons, hl]; omega, hk, ?_⟩
          intro j hj1 hj2
          rcases Nat.eq_or_lt_of_le hj1 with rfl | hlt
          · exact hp
          · exact hall j hlt hj2

/-- The start-up phase evaluates the loop condition at most six times; it exits with status 1
exactly when all six evaluations find a node that is not ready. -/
theorem startServers_spec (ipAddresses : List String) (reply : Nat → Nat → String) :
    ∃ r, startServers ipAddresses reply = some r ∧ r.polls.length ≤ 6 ∧
      (r.exitStatus = some 1 ↔
        ∀ k ≤ 5, (pollServers ipAddresses (reply k)).2 = true) ∧
      (r.exitStatus = some 1 → r.polls.length = 6 ∧ r.sent = stopServers ipAddresses) ∧
      (r.exitStatus ≠ some 1 → r.exitStatus = none ∧ r.sent = []) := by
  obtain ⟨r, hr, hcase⟩ := waitForServers_spec ipAddresses reply 6 0 (by omega) (by omega)
  refine ⟨r, hr, ?_⟩
  rcases hcase with ⟨he, hs, hl, hall⟩ | ⟨he, hs, k, _, hk2, hl, hk, _⟩
  · refine ⟨by omega, ⟨fun _ k hk => hall k (Nat.zero_le _) hk, fun _ => he⟩,
      fun _ => ⟨by omega, hs⟩, fun h => absurd he h⟩
  · refine ⟨by omega, ⟨fun h => ?_, fun h => ?_⟩, fun h => ?_, fun _ => ⟨he, hs⟩⟩
    · rw [he] at h
      simp at h
    · have := h k hk2
      rw [hk] at this
      simp at this
    · rw [he] at h
      simp at h

theorem foldl_sep_eq (l : List String) :
    ∀ acc : String, l.foldl (fun oss t => oss ++ " " ++ t) acc =
      acc ++ l.foldl (fun oss t => oss ++ " " ++ t) "" := by
  induction l with
  | nil => intro acc; simp
  | cons t l ih =>
    intro acc
    simp only [List.foldl_cons]
    rw [ih (acc ++ " " ++ t), ih ("" ++ " " ++ t)]
    simp only [String.append_assoc, String.empty_append]

theorem intercalate_go_eq (l : List String) :
    ∀ acc : String, String.intercalate.go acc " " l =
      acc ++ l.foldl (fun oss t => oss ++ " " ++ t) "" := by
  induction l with
  | nil => intro acc; simp [String.intercalate.go]
  | cons t l ih =>
    intro acc
    simp only [String.intercalate.go, List.foldl_cons]
    rw [ih, foldl_sep_eq l ("" ++ " " ++ t)]
    simp only [String.append_assoc, String.empty_append]

/-- The list of ids written by `generateBlockTo` is the coinbase id and the chosen mempool
ids, separated by spaces. -/
theorem intercalate_cons_eq (c : String) (l : List String) :
    c ++ l.foldl (fun oss t => oss ++ " " ++ t) "" = " ".intercalate (c :: l) := by
  simp only [String.intercalate, intercalate_go_eq]

theorem transactionCnt_bound (inp : BlockToInput) :
    transactionCnt inp ≤ inp.mempool.length ∧
      (inp.mempool.length = 0 → transactionCnt inp = 0) ∧
      (0 < inp.mempool.length → transactionCnt inp < inp.mempool.length) := by
  unfold transactionCnt
  split_ifs with h
  · have := Nat.mod_lt inp.rand h
    exact ⟨by omega, by omega, fun _ => this⟩
  · exact ⟨by omega, fun _ => rfl, fun h' => absurd h' h⟩

/-- In a fleet without repeated addresses, the address at a position does not occur among the
addresses of the other positions. -/
theorem not_mem_eraseIdx_of_nodup {l : List String} (hl : l.Nodup) {p : Nat} {ip : String}
    (hp : l[p]? = some ip) : ip ∉ l.eraseIdx p := by
  intro hmem
  obtain ⟨i, hne, hi⟩ := List.mem_eraseIdx_iff_getElem?.mp hmem
  obtain ⟨hib, hiv⟩ := List.getElem?_eq_some.mp hi
  obtain ⟨hpb, hpv⟩ := List.getElem?_eq_some.mp hp
  exact hne ((hl.getElem_inj_iff).mp (hiv.trans hpv.symm))

end DriverTheory

section DriverClaims

/-- C7: if the round loop of `main` is still running after `M` rounds, then after every
number `i ≤ M` of rounds the two tallies add up to `i` (to `M` at the end), whoever was
selected and whatever `grind` found, and the verdict printed is "Attack successful!" exactly
when `attackerTotal > networkTotal`. -/
theorem consensusRounds_tally (ipAddresses vulncoinAddresses : List String)
    (inputs : Nat → RoundInput) (M : Nat) (hM : M < 2 ^ 64)
    (hrun : (consensusRounds ipAddresses vulncoinAddresses inputs M).status =
      RunStatus.running) :
    (∀ i ≤ M,
      (consensusRounds ipAddresses vulncoinAddresses inputs i).attackerTotal +
        (consensusRounds ipAddresses vulncoinAddresses inputs i).networkTotal = i) ∧
    (consensusRounds ipAddresses vulncoinAddresses inputs M).attackerTotal +
      (consensusRounds ipAddresses vulncoinAddresses inputs M).networkTotal = M ∧
    (verdict (consensusRounds ipAddresses vulncoinAddresses inputs M) = "Attack successful!" ↔
      (consensusRounds ipAddresses vulncoinAddresses inputs M).attackerTotal >
        (consensusRounds ipAddresses vulncoinAddresses inputs M).networkTotal) := by
  refine ⟨fun i hi => ?_, ?_, ?_⟩
  · exact consensusRounds_sum i (by omega) (consensusRounds_running_of_le hrun i hi)
  · exact consensusRounds_sum M hM hrun
  · unfold verdict
    split_ifs with h
    · simp [h]
    · simp only [h, iff_false]
      decide

theorem consensusRounds_tally_witness :
    (2 : Nat) < 2 ^ 64 ∧
    (consensusRounds exampleFleet exampleAddresses (fun _ => exampleRound) 2).status =
      RunStatus.running ∧
    (∀ i ≤ 2,
      (consensusRounds exampleFleet exampleAddresses (fun _ => exampleRound) i).attackerTotal +
        (consensusRounds exampleFleet exampleAddresses (fun _ => exampleRound) i).networkTotal
          = i) ∧
    (consensusRounds exampleFleet exampleAddresses (fun _ => exampleRound) 2).attackerTotal +
      (consensusRounds exampleFleet exampleAddresses (fun _ => exampleRound) 2).networkTotal
        = 2 ∧
    (verdict (consensusRounds exampleFleet exampleAddresses (fun _ => exampleRound) 2) =
        "Attack successful!" ↔
      (consensusRounds exampleFleet exampleAddresses (fun _ => exampleRound) 2).attackerTotal >
        (consensusRounds exampleFleet exampleAddresses (fun _ => exampleRound) 2).networkTotal) :=
  ⟨by decide, by decide!,
    consensusRounds_tally exampleFleet exampleAddresses (fun _ => exampleRound) 2 (by decide)
      (by decide!)⟩

/-- A fleet of three nodes in which the third node disagrees: the probe queries all three,
sends `stop` to all three and exits with status 1. -/
theorem validatorProbe_example :
    validatorProbe exampleFleet (fun i => if i = 2 then "a2" else "a1") =
      some ⟨[⟨"countNextValidator", "10.0.0.1"⟩, ⟨"countNextValidator", "10.0.0.2"⟩,
        ⟨"countNextValidator", "10.0.0.3"⟩, ⟨"stop", "10.0.0.1"⟩, ⟨"stop", "10.0.0.2"⟩,
        ⟨"stop", "10.0.0.3"⟩], "a1", some 1⟩ := by
  decide!

/-- C9 (the claim as stated fails): in the example round the three `countNextValidator`
queries are sent before the `stake` commands, not after them. -/
theorem consensusRound_example_probe_before_stakes :
    consensusRound exampleFleet exampleAddresses exampleRound =
      ([⟨"listUnspentLinkedToMe", "10.0.0.1"⟩, ⟨"listUnspentLinkedToMe", "10.0.0.2"⟩,
        ⟨"listUnspentLinkedToMe", "10.0.0.3"⟩,
        ⟨"countNextValidator", "10.0.0.1"⟩, ⟨"countNextValidator", "10.0.0.2"⟩,
        ⟨"countNextValidator", "10.0.0.3"⟩,
        ⟨"listUnspentLinkedToMe", "10.0.0.1"⟩,
        ⟨"stake u a", "10.0.0.1"⟩, ⟨"stake u a", "10.0.0.2"⟩, ⟨"stake u a", "10.0.0.3"⟩,
        ⟨"listUnspentLinkedToMe", "10.0.0.2"⟩,
        ⟨"stake u a", "10.0.0.1"⟩, ⟨"stake u a", "10.0.0.2"⟩, ⟨"stake u a", "10.0.0.3"⟩,
        ⟨"listUnspentLinkedToMe", "10.0.0.3"⟩,
        ⟨"stake u a", "10.0.0.1"⟩, ⟨"stake u a", "10.0.0.2"⟩, ⟨"stake u a", "10.0.0.3"⟩,
        ⟨"listMempool", "10.0.0.2"⟩,
        ⟨"loadCoinbaseTransaction a1 1700000000", "10.0.0.1"⟩,
        ⟨"proposeBlock \x7bcb\x7d", "10.0.0.1"⟩,
        ⟨"loadCoinbaseTransaction a1 1700000000", "10.0.0.2"⟩,
        ⟨"proposeBlock \x7bcb\x7d", "10.0.0.2"⟩,
        ⟨"loadCoinbaseTransaction a1 1700000000", "10.0.0.3"⟩,
        ⟨"proposeBlock \x7bcb\x7d", "10.0.0.3"⟩], RoundOutcome.networkBlock) ∧
    ∃ i j : Nat, j < i ∧
      ((consensusRound exampleFleet exampleAddresses exampleRound).1[j]?).map
        isCountNextValidator = some true ∧
      ((consensusRound exampleFleet exampleAddresses exampleRound).1[i]?).map isStake =
        some true :=
  ⟨by decide!, 7, 3, by decide, by decide!, by decide!⟩

/-- C9 (amended): a consensus round that ends with a block sends, in this order, the commands
of the transaction fan-out, the `countNextValidator` queries of the probe (one per node), the
commands of the stake deposit, and the commands of the branch taken (`grind` for the attacker,
`generateBlockTo` otherwise); no `stake` command is sent before the end of the probe and no
`countNextValidator` query after it. -/
theorem consensusRound_phase_order (ipAddresses vulncoinAddresses : List String)
    (inp : RoundInput)
    (hdone : (consensusRound ipAddresses vulncoinAddresses inp).2 =
        RoundOutcome.attackerBlock ∨
      (consensusRound ipAddresses vulncoinAddresses inp).2 = RoundOutcome.networkBlock) :
    ∃ (fanOut probe stakes branch : List Msg) (attacker : String),
      (consensusRound ipAddresses vulncoinAddresses inp).1 =
        fanOut ++ probe ++ stakes ++ branch ∧
      createTransactions ipAddresses vulncoinAddresses inp.scripts = some fanOut ∧
      probe = ipAddresses.map (fun ip => ⟨"countNextValidator", ip⟩) ∧
      stakes = createStakes ipAddresses inp.unspentOutputs ∧
      vulncoinAddresses.head? = some attacker ∧
      (((consensusRound ipAddresses vulncoinAddresses inp).2 = RoundOutcome.attackerBlock ∧
          inp.nextValidator 0 = attacker ∧
          ∃ r, grind ipAddresses attacker inp.grindInput = some r ∧ branch = r.sent) ∨
        ((consensusRound ipAddresses vulncoinAddresses inp).2 = RoundOutcome.networkBlock ∧
          inp.nextValidator 0 ≠ attacker ∧
          generateBlockTo (inp.nextValidator 0) ipAddresses vulncoinAddresses inp.blockInput =
            some branch)) ∧
      (∀ m ∈ fanOut ++ probe, isStake m = false) ∧
      (∀ m ∈ stakes ++ branch, isCountNextValidator m = false) := by
  cases hf : createTransactions ipAddresses vulncoinAddresses inp.scripts with
  | none => simp [consensusRound, hf] at hdone
  | some fanOut =>
    cases hp : validatorProbe ipAddresses inp.nextValidator with
    | none => simp [consensusRound, hf, hp] at hdone
    | some probe =>
      cases ha : vulncoinAddresses.head? with
      | none => simp [consensusRound, hf, hp, ha] at hdone
      | some attacker =>
        obtain ⟨hfleet, hexp⟩ := validatorProbe_some hp
        cases he : probe.exitStatus with
        | some status =>
          rw [consensusRound_probe_fails hf hp ha he] at hdone
          simp at hdone
        | none =>
          obtain ⟨r, hr, _, hsent, _⟩ := validatorProbe_spec ipAddresses inp.nextValidator hfleet
          obtain rfl : r = probe := Option.some.inj (hr.symm.trans hp)
          have hprobe := hsent he
          have hpre : ∀ m ∈ fanOut ++ r.sent, isStake m = false := by
            intro m hm
            rcases List.mem_append.mp hm with hm | hm
            · exact createTransactionsFrom_not_stake _ _ _ _ _ _ hf m hm
            · rw [hprobe] at hm
              obtain ⟨ip, _, rfl⟩ := List.mem_map.mp hm
              simp [isStake, List.isPrefixOf]
          by_cases hc : r.expectedCreator = attacker
          · cases hg : grind ipAddresses attacker inp.grindInput with
            | none => simp [consensusRound, hf, hp, ha, he, hc, hg] at hdone
            | some g =>
              have hround : consensusRound ipAddresses vulncoinAddresses inp =
                  (fanOut ++ r.sent ++ createStakes ipAddresses inp.unspentOutputs ++ g.sent,
                    RoundOutcome.attackerBlock) := by
                simp only [consensusRound, hf, hp, ha, he, hc, hg, if_true]
              rw [hround]
              refine ⟨fanOut, r.sent, _, g.sent, attacker, rfl, rfl, hprobe, rfl, rfl,
                Or.inl ⟨rfl, hexp ▸ hc, g, hg, rfl⟩, hpre, ?_⟩
              intro m hm
              rcases List.mem_append.mp hm with hm | hm
              · exact createStakes_not_count _ _ m hm
              · exact grind_sent_not_count hg m hm
          · cases hb : generateBlockTo r.expectedCreator ipAddresses vulncoinAddresses
                inp.blockInput with
            | none => simp [consensusRound, hf, hp, ha, he, hc, hb] at hdone
            | some b =>
              have hround : consensusRound ipAddresses vulncoinAddresses inp =
                  (fanOut ++ r.sent ++ createStakes ipAddresses inp.unspentOutputs ++ b,
                    RoundOutcome.networkBlock) := by
                simp only [consensusRound, hf, hp, ha, he, hc, hb, if_false]
              rw [hround]
              refine ⟨fanOut, r.sent, _, b, attacker, rfl, rfl, hprobe, rfl, rfl,
                Or.inr ⟨rfl, hexp ▸ hc, hexp ▸ hb⟩, hpre, ?_⟩
              intro m hm
              rcases List.mem_append.mp hm with hm | hm
              · exact createStakes_not_count _ _ m hm
              · exact generateBlockTo_not_count hb m hm

theorem consensusRound_phase_order_witness :
    ((consensusRound exampleFleet exampleAddresses exampleRound).2 =
        RoundOutcome.attackerBlock ∨
      (consensusRound exampleFleet exampleAddresses exampleRound).2 =
        RoundOutcome.networkBlock) ∧
    ∃ (fanOut probe stakes branch : List Msg) (attacker : String),
      (consensusRound exampleFleet exampleAddresses exampleRound).1 =
        fanOut ++ probe ++ stakes ++ branch ∧
      createTransactions exampleFleet exampleAddresses exampleRound.scripts = some fanOut ∧
      probe = exampleFleet.map (fun ip => ⟨"countNextValidator", ip⟩) ∧
      stakes = createStakes exampleFleet exampleRound.unspentOutputs ∧
      exampleAddresses.head? = some attacker ∧
      (((consensusRound exampleFleet exampleAddresses exampleRound).2 =
            RoundOutcome.attackerBlock ∧
          exampleRound.nextValidator 0 = attacker ∧
          ∃ r, grind exampleFleet attacker exampleRound.grindInput = some r ∧
            branch = r.sent) ∨
        ((consensusRound exampleFleet exampleAddresses exampleRound).2 =
            RoundOutcome.networkBlock ∧
          exampleRound.nextValidator 0 ≠ attacker ∧
          generateBlockTo (exampleRound.nextValidator 0) exampleFleet exampleAddresses
            exampleRound.blockInput = some branch)) ∧
      (∀ m ∈ fanOut ++ probe, isStake m = false) ∧
      (∀ m ∈ stakes ++ branch, isCountNextValidator m = false) :=
  ⟨Or.inr (by decide!),
    consensusRound_phase_order exampleFleet exampleAddresses exampleRound (Or.inr (by decide!))⟩

/-- C11 (the code departs from the claim): when every node's reply to `countNextValidator` is
the empty string, the replies agree, the probe passes, no `stop` is sent, the round goes on
to send the `stake` commands and then has no defined behaviour, since the empty string is not
the address of a node; the process does not exit with status 1. -/
theorem consensusRound_all_replies_empty :
    (validatorProbe exampleFleet silentRound.nextValidator).map (fun r => r.exitStatus) =
      some none ∧
    (consensusRound exampleFleet exampleAddresses silentRound).1 =
      [⟨"listUnspentLinkedToMe", "10.0.0.1"⟩, ⟨"listUnspentLinkedToMe", "10.0.0.2"⟩,
        ⟨"listUnspentLinkedToMe", "10.0.0.3"⟩,
        ⟨"countNextValidator", "10.0.0.1"⟩, ⟨"countNextValidator", "10.0.0.2"⟩,
        ⟨"countNextValidator", "10.0.0.3"⟩,
        ⟨"listUnspentLinkedToMe", "10.0.0.1"⟩,
        ⟨"stake u a", "10.0.0.1"⟩, ⟨"stake u a", "10.0.0.2"⟩, ⟨"stake u a", "10.0.0.3"⟩,
        ⟨"listUnspentLinkedToMe", "10.0.0.2"⟩,
        ⟨"stake u a", "10.0.0.1"⟩, ⟨"stake u a", "10.0.0.2"⟩, ⟨"stake u a", "10.0.0.3"⟩,
        ⟨"listUnspentLinkedToMe", "10.0.0.3"⟩,
        ⟨"stake u a", "10.0.0.1"⟩, ⟨"stake u a", "10.0.0.2"⟩, ⟨"stake u a", "10.0.0.3"⟩] ∧
    (consensusRound exampleFleet exampleAddresses silentRound).2 ≠ RoundOutcome.exited 1 :=
  ⟨by decide!, by decide!, by decide!⟩

/-- What a round does with empty replies: in a round whose fan-out has been carried out, if
some node's reply to `countNextValidator` is the empty string while another node's reply is
not, the round sends the queries made so far, `stop` to every node and nothing else, and the
process exits with status 1; if every reply is empty, the probe passes: all nodes are queried
and the round goes on with the commands of the stake deposit, without exiting. -/
theorem consensusRound_empty_reply (ipAddresses vulncoinAddresses : List String)
    (inp : RoundInput) (fanOut : List Msg) (attacker : String)
    (hf : createTransactions ipAddresses vulncoinAddresses inp.scripts = some fanOut)
    (hfleet : ipAddresses ≠ []) (ha : vulncoinAddresses.head? = some attacker) :
    ((∃ i < ipAddresses.length, inp.nextValidator i = "") →
      (∃ j < ipAddresses.length, inp.nextValidator j ≠ "") →
      ∃ k ≤ ipAddresses.length,
        consensusRound ipAddresses vulncoinAddresses inp =
          (fanOut ++ ((ipAddresses.take k).map fun ip => ⟨"countNextValidator", ip⟩) ++
            stopServers ipAddresses, RoundOutcome.exited 1)) ∧
    ((∀ i < ipAddresses.length, inp.nextValidator i = "") →
      (∃ rest,
        (consensusRound ipAddresses vulncoinAddresses inp).1 =
          fanOut ++ (ipAddresses.map fun ip => ⟨"countNextValidator", ip⟩) ++
            createStakes ipAddresses inp.unspentOutputs ++ rest) ∧
      ∀ status, (consensusRound ipAddresses vulncoinAddresses inp).2 ≠
        RoundOutcome.exited status) := by
  obtain ⟨r, hr, hiff, hpass, hfail, _⟩ :=
    validatorProbe_spec ipAddresses inp.nextValidator hfleet
  have hpos : 0 < ipAddresses.length := List.length_pos.mpr hfleet
  refine ⟨?_, ?_⟩
  · rintro ⟨i, hi, hie⟩ ⟨j, hj, hje⟩
    have hne : r.exitStatus ≠ none := by
      intro h
      have hall := hiff.mp h
      have h1 := hall i hi
      have h2 := hall j hj
      rw [hie] at h1
      rw [← h1] at h2
      exact hje h2
    obtain ⟨he, k, hk, hsent⟩ := hfail hne
    refine ⟨k, hk, ?_⟩
    rw [consensusRound_probe_fails hf hr ha he, hsent, List.append_assoc]
  · intro hall
    have he : r.exitStatus = none :=
      hiff.mpr fun i hi => (hall i hi).trans (hall 0 hpos).symm
    have hsent := hpass he
    by_cases hc : r.expectedCreator = attacker
    · cases hg : grind ipAddresses attacker inp.grindInput with
      | none =>
        have hround : consensusRound ipAddresses vulncoinAddresses inp =
            (fanOut ++ r.sent ++ createStakes ipAddresses inp.unspentOutputs,
              RoundOutcome.undefined) := by
          simp only [consensusRound, hf, hr, ha, he, hc, hg, if_true]
        rw [hround, hsent]
        exact ⟨⟨[], by simp⟩, fun status h => by simp at h⟩
      | some g =>
        have hround : consensusRound ipAddresses vulncoinAddresses inp =
            (fanOut ++ r.sent ++ createStakes ipAddresses inp.unspentOutputs ++ g.sent,
              RoundOutcome.attackerBlock) := by
          simp only [consensusRound, hf, hr, ha, he, hc, hg, if_true]
        rw [hround, hsent]
        exact ⟨⟨g.sent, rfl⟩, fun status h => by simp at h⟩
    · cases hb : generateBlockTo r.expectedCreator ipAddresses vulncoinAddresses
          inp.blockInput with
      | none =>
        have hround : consensusRound ipAddresses vulncoinAddresses inp =
            (fanOut ++ r.sent ++ createStakes ipAddresses inp.unspentOutputs,
              RoundOutcome.undefined) := by
          simp only [consensusRound, hf, hr, ha, he, hc, hb, if_false]
        rw [hround, hsent]
        exact ⟨⟨[], by simp⟩, fun status h => by simp at h⟩
      | some b =>
        have hround : consensusRound ipAddresses vulncoinAddresses inp =
            (fanOut ++ r.sent ++ createStakes ipAddresses inp.unspentOutputs ++ b,
              RoundOutcome.networkBlock) := by
          simp only [consensusRound, hf, hr, ha, he, hc, hb, if_false]
        rw [hround, hsent]
        exact ⟨⟨b, rfl⟩, fun status h => by simp at h⟩

/-- C12: for every mempool and every draw, the number `c` of mempool entries that
`generateBlockTo` includes is at most the size `m` of the mempool, `0` when `m = 0` and below
`m` when `m > 0`; after the `listMempool` query to the creator's node, the same pair of
commands, `loadCoinbaseTransaction` and the `proposeBlock` listing the new coinbase id followed
by the first `c` mempool ids in mempool order, is sent to every node of the fleet once, in
fleet order starting with position 0. -/
theorem generateBlockTo_block_and_order (expectedCreator : String)
    (ipAddresses vulnCoinAddresses : List String) (inp : BlockToInput) (creatorIp : String)
    (hmem : expectedCreator ∈ vulnCoinAddresses)
    (hcreator : ipAddresses[vulnCoinAddresses.indexOf expectedCreator]? = some creatorIp) :
    transactionCnt inp ≤ inp.mempool.length ∧
    (inp.mempool.length = 0 → transactionCnt inp = 0) ∧
    (0 < inp.mempool.length → transactionCnt inp < inp.mempool.length) ∧
    generateBlockTo expectedCreator ipAddresses vulnCoinAddresses inp =
      some (⟨"listMempool", creatorIp⟩ :: ipAddresses.flatMap fun ip =>
        [⟨"loadCoinbaseTransaction " ++ expectedCreator ++ " " ++ toString inp.timeNow, ip⟩,
         ⟨"proposeBlock \x7b" ++
            " ".intercalate (inp.coinbaseTxid :: inp.mempool.take (transactionCnt inp)) ++
            "\x7d", ip⟩]) := by
  obtain ⟨h1, h2, h3⟩ := transactionCnt_bound inp
  refine ⟨h1, h2, h3, ?_⟩
  cases ipAddresses with
  | nil => simp at hcreator
  | cons ip0 rest =>
    simp only [generateBlockTo, hmem, if_true, hcreator, List.head?_cons, List.drop_one,
      List.tail_cons, List.flatMap_cons, ← intercalate_cons_eq, String.append_assoc]
    rfl

theorem generateBlockTo_block_and_order_witness :
    "a2" ∈ exampleAddresses ∧
    exampleFleet[exampleAddresses.indexOf "a2"]? = some "10.0.0.3" ∧
    transactionCnt exampleBlockInput ≤ exampleBlockInput.mempool.length ∧
    (exampleBlockInput.mempool.length = 0 → transactionCnt exampleBlockInput = 0) ∧
    (0 < exampleBlockInput.mempool.length →
      transactionCnt exampleBlockInput < exampleBlockInput.mempool.length) ∧
    generateBlockTo "a2" exampleFleet exampleAddresses exampleBlockInput =
      some (⟨"listMempool", "10.0.0.3"⟩ :: exampleFleet.flatMap fun ip =>
        [⟨"loadCoinbaseTransaction " ++ "a2" ++ " " ++ toString exampleBlockInput.timeNow, ip⟩,
         ⟨"proposeBlock \x7b" ++
            " ".intercalate (exampleBlockInput.coinbaseTxid ::
              exampleBlockInput.mempool.take (transactionCnt exampleBlockInput)) ++
            "\x7d", ip⟩]) :=
  ⟨by decide, by decide,
    generateBlockTo_block_and_order "a2" exampleFleet exampleAddresses exampleBlockInput
      "10.0.0.3" (by decide) (by decide)⟩

/-- The draw 5 on a mempool of three entries puts the first two of them into the block. -/
theorem generateBlockTo_example :
    generateBlockTo "a2" exampleFleet exampleAddresses exampleBlockInput =
      some [⟨"listMempool", "10.0.0.3"⟩,
        ⟨"loadCoinbaseTransaction a2 1700000000", "10.0.0.1"⟩,
        ⟨"proposeBlock \x7bcb m1 m2\x7d", "10.0.0.1"⟩,
        ⟨"loadCoinbaseTransaction a2 1700000000", "10.0.0.2"⟩,
        ⟨"proposeBlock \x7bcb m1 m2\x7d", "10.0.0.2"⟩,
        ⟨"loadCoinbaseTransaction a2 1700000000", "10.0.0.3"⟩,
        ⟨"proposeBlock \x7bcb m1 m2\x7d", "10.0.0.3"⟩] := by
  decide!

/-- C13: for a non-empty fleet of `n` nodes and a draw `r`, `generateRandomBlock` returns the
position `p = r % n`, which is below `n`; it sends `generate`, `printBlockchain` and
`printTransaction` to the node at `p` and to no other node, and then the pair
`loadCoinbaseTransaction`, `proposeBlock` to the nodes at all other positions, once each and in
fleet order; the `proposeBlock` command names only the first transaction id of the last block
of the creator's chain. Where the addresses of the fleet are distinct, no command of the pair
goes to the address of the creator. -/
theorem generateRandomBlock_creator_and_order (ipAddresses : List String)
    (inp : RandomBlockInput) (lastBlock : Block) (coinbaseTxid : String)
    (hfleet : ipAddresses ≠ []) (hlast : inp.blockchain.getLast? = some lastBlock)
    (hcb : lastBlock.transactions.head? = some coinbaseTxid) :
    inp.rand % ipAddresses.length < ipAddresses.length ∧
    ∃ creatorIp, ipAddresses[inp.rand % ipAddresses.length]? = some creatorIp ∧
      generateRandomBlock ipAddresses inp =
        some ([⟨"generate", creatorIp⟩, ⟨"printBlockchain", creatorIp⟩,
            ⟨"printTransaction " ++ coinbaseTxid, creatorIp⟩] ++
          (ipAddresses.eraseIdx (inp.rand % ipAddresses.length)).flatMap (fun address =>
            [⟨"loadCoinbaseTransaction " ++ inp.coinbaseTransaction.address ++ " " ++
                inp.coinbaseTransaction.timestamp, address⟩,
             ⟨"proposeBlock \x7b" ++ coinbaseTxid ++ "\x7d", address⟩]),
          inp.rand % ipAddresses.length) ∧
      (ipAddresses.Nodup →
        creatorIp ∉ ipAddresses.eraseIdx (inp.rand % ipAddresses.length)) := by
  have hpos : 0 < ipAddresses.length := List.length_pos.mpr hfleet
  have hlt : inp.rand % ipAddresses.length < ipAddresses.length := Nat.mod_lt _ hpos
  refine ⟨hlt, ipAddresses[inp.rand % ipAddresses.length], List.getElem?_eq_getElem hlt, ?_,
    fun hnd => not_mem_eraseIdx_of_nodup hnd (List.getElem?_eq_getElem hlt)⟩
  simp only [generateRandomBlock, List.getElem?_eq_getElem hlt, hlast, hcb]

theorem generateRandomBlock_creator_and_order_witness :
    exampleFleet ≠ [] ∧ exampleRandomBlock.blockchain.getLast? = some ⟨"h1", ["c9"]⟩ ∧
    (⟨"h1", ["c9"]⟩ : Block).transactions.head? = some "c9" ∧
    exampleRandomBlock.rand % exampleFleet.length < exampleFleet.length ∧
    ∃ creatorIp, exampleFleet[exampleRandomBlock.rand % exampleFleet.length]? = some creatorIp ∧
      generateRandomBlock exampleFleet exampleRandomBlock =
        some ([⟨"generate", creatorIp⟩, ⟨"printBlockchain", creatorIp⟩,
            ⟨"printTransaction " ++ "c9", creatorIp⟩] ++
          (exampleFleet.eraseIdx (exampleRandomBlock.rand % exampleFleet.length)).flatMap
            (fun address =>
              [⟨"loadCoinbaseTransaction " ++ exampleRandomBlock.coinbaseTransaction.address ++
                  " " ++ exampleRandomBlock.coinbaseTransaction.timestamp, address⟩,
               ⟨"proposeBlock \x7b" ++ "c9" ++ "\x7d", address⟩]),
          exampleRandomBlock.rand % exampleFleet.length) ∧
      (exampleFleet.Nodup →
        creatorIp ∉ exampleFleet.eraseIdx (exampleRandomBlock.rand % exampleFleet.length)) :=
  ⟨by decide, by decide, by decide,
    generateRandomBlock_creator_and_order exampleFleet exampleRandomBlock ⟨"h1", ["c9"]⟩ "c9"
      (by decide) (by decide) (by decide)⟩

/-- The draw 7 on a fleet of three selects position 1: the block is generated on the second
node and handed to the first and the third. -/
theorem generateRandomBlock_example :
    generateRandomBlock exampleFleet exampleRandomBlock =
      some ([⟨"generate", "10.0.0.2"⟩, ⟨"printBlockchain", "10.0.0.2"⟩,
        ⟨"printTransaction c9", "10.0.0.2"⟩,
        ⟨"loadCoinbaseTransaction a1 1700000000", "10.0.0.1"⟩,
        ⟨"proposeBlock \x7bc9\x7d", "10.0.0.1"⟩,
        ⟨"loadCoinbaseTransaction a1 1700000000", "10.0.0.3"⟩,
        ⟨"proposeBlock \x7bc9\x7d", "10.0.0.3"⟩], 1) := by
  decide!

/-- C14 (the claim as stated fails): the ids `a`, `aa` and their permutation `aa`, `a`
differ as sequences but give the same concatenation, hence the same transactions hash and the
same block hash. Ids of one common length do not exclude this either: among the orderings of
58 different ids of 58 characters two different ones have the same transactions hash, since
there are more orderings than digests. -/
theorem transactionHash_same_for_reordered_ids :
    (["aa", "a"].Perm ["a", "aa"] ∧ (["aa", "a"] : List String) ≠ ["a", "aa"] ∧
      transactionHash ["aa", "a"] = transactionHash ["a", "aa"] ∧
      getBlockHash "00" ["aa", "a"] = getBlockHash "00" ["a", "aa"]) ∧
    ∃ ids p : List String, (∀ t ∈ ids, t.length = 58) ∧ p.Perm ids ∧ p ≠ ids ∧
      transactionHash p = transactionHash ids :=
  ⟨⟨List.Perm.swap _ _ _, by decide, rfl, rfl⟩, exists_reordering_with_same_hash⟩

/-- C14 (amended): for transaction ids that all have the same length, a permutation of the list
that differs from it as a sequence gives a different concatenation of the ids, which is the
string `getBlockHash` feeds to the digest; and where `sha256` does not give these two
different strings the same digest, the transactions hash of the permuted list differs from
that of the original list. -/
theorem transactionHash_order_sensitive (prevBlockHash : String) (ids p : List String)
    (k : Nat) (hperm : p.Perm ids) (hne : p ≠ ids) (hlen : ∀ t ∈ ids, t.length = k)
    (hdigest : sha256 (p.foldl (fun oss t => oss ++ t) "") =
        sha256 (ids.foldl (fun oss t => oss ++ t) "") →
      p.foldl (fun oss t => oss ++ t) "" = ids.foldl (fun oss t => oss ++ t) "") :
    p.foldl (fun oss t => oss ++ t) "" ≠ ids.foldl (fun oss t => oss ++ t) "" ∧
    transactionHash p ≠ transactionHash ids ∧
    getBlockHash prevBlockHash p = sha256 (prevBlockHash ++ transactionHash p) ∧
    getBlockHash prevBlockHash ids = sha256 (prevBlockHash ++ transactionHash ids) := by
  have hconcat : p.foldl (fun oss t => oss ++ t) "" ≠ ids.foldl (fun oss t => oss ++ t) "" := by
    intro h
    rw [foldl_append_eq, foldl_append_eq, String.empty_append, String.empty_append] at h
    exact hne (concat_injective k p ids hperm.length_eq
      (fun t ht => hlen t (hperm.subset ht)) hlen h)
  exact ⟨hconcat, fun h => hconcat (hdigest h), rfl, rfl⟩

theorem transactionHash_order_sensitive_witness :
    ["bb", "aa"].Perm ["aa", "bb"] ∧ (["bb", "aa"] : List String) ≠ ["aa", "bb"] ∧
    (∀ t ∈ (["aa", "bb"] : List String), t.length = 2) ∧
    (sha256 (["bb", "aa"].foldl (fun oss t => oss ++ t) "") =
        sha256 (["aa", "bb"].foldl (fun oss t => oss ++ t) "") →
      ["bb", "aa"].foldl (fun oss t => oss ++ t) "" =
        ["aa", "bb"].foldl (fun oss t => oss ++ t) "") ∧
    ["bb", "aa"].foldl (fun oss t => oss ++ t) "" ≠
      ["aa", "bb"].foldl (fun oss t => oss ++ t) "" ∧
    transactionHash ["bb", "aa"] ≠ transactionHash ["aa", "bb"] ∧
    getBlockHash "00" ["bb", "aa"] = sha256 ("00" ++ transactionHash ["bb", "aa"]) ∧
    getBlockHash "00" ["aa", "bb"] = sha256 ("00" ++ transactionHash ["aa", "bb"]) :=
  have hdigest : sha256 (["bb", "aa"].foldl (fun oss t => oss ++ t) "") =
        sha256 (["aa", "bb"].foldl (fun oss t => oss ++ t) "") →
      ["bb", "aa"].foldl (fun oss t => oss ++ t) "" =
        ["aa", "bb"].foldl (fun oss t => oss ++ t) "" :=
    fun h => absurd h (by decide!)
  ⟨List.Perm.swap _ _ _, by decide, by decide, hdigest,
    transactionHash_order_sensitive "00" ["aa", "bb"] ["bb", "aa"] 2 (List.Perm.swap _ _ _)
      (by decide) (by decide) hdigest⟩

/-- The search over a single candidate in terms of `hexPrefix`, the number the code reads from
a block hash: with an empty mempool the only candidate is the coinbase id, and `grind` tests
exactly one ordering, the list of that id alone: it is successful exactly when
`(creator + hexPrefix blockHash % size) % size` is the attacker's index in the stake pool, and
unsuccessful after that one ordering otherwise; in both cases the block broadcast lists just
the coinbase id. -/
theorem grind_single_candidate (ipAddresses : List String) (selectedAddress : String)
    (inp : GrindInput) (lastBlock : Block) (hfleet : ipAddresses ≠ [])
    (hlast : inp.blockchain.getLast? = some lastBlock)
    (hmem : selectedAddress ∈ inp.stakepool) (hempty : inp.mempool = []) :
    ∃ r, grind ipAddresses selectedAddress inp = some r ∧
      r.tested = [[inp.coinbaseTxid]] ∧ r.txids = [inp.coinbaseTxid] ∧
      (r.successfulGrind = true ↔
        (r.creator + hexPrefix (getBlockHash
            (getBlockHash lastBlock.prevBlockHash lastBlock.transactions) [inp.coinbaseTxid]) %
          inp.stakepool.length) % inp.stakepool.length = inp.stakepool.indexOf selectedAddress) ∧
      r.sent.filter isProposeBlock = ipAddresses.map (fun ipAddress =>
        ⟨"proposeBlock \x7b" ++ inp.coinbaseTxid ++ "\x7d", ipAddress⟩) := by
  obtain ⟨r, lr, hg, hlr, _, ht, hx, hsg, _, hsent⟩ := grind_eq_some hfleet hlast hmem
  have hc : candidates inp = [inp.coinbaseTxid] := by
    simp only [candidates, hempty]
  have hnext : nextPermutation [inp.coinbaseTxid] = ([inp.coinbaseTxid], false) := by
    simp [nextPermutation, findPivot]
  rw [hc] at hlr
  simp only [List.insertionSort, List.orderedInsert, List.length_singleton,
    Nat.factorial_one, permLoop, hnext] at hlr
  have hcmd : proposeBlockCommand [inp.coinbaseTxid] =
      "proposeBlock \x7b" ++ inp.coinbaseTxid ++ "\x7d" := by
    simp [proposeBlockCommand, String.intercalate, String.intercalate.go]
  split_ifs at hlr with htest
  · simp only [Option.some.injEq] at hlr
    subst hlr
    refine ⟨r, hg, ht, hx, ?_, ?_⟩
    · rw [hsg]
      simp only [matchTest, decide_eq_true_eq] at htest
      simp only [true_iff]
      exact htest
    · rw [hsent, hx, hcmd]
  · simp only [Option.some.injEq] at hlr
    subst hlr
    refine ⟨r, hg, ht, hx, ?_, ?_⟩
    · rw [hsg]
      simp only [matchTest, decide_eq_true_eq] at htest
      simp only [Bool.false_eq_true, false_iff]
      exact htest
    · rw [hsent, hx, hcmd]

/-- C15 (the code departs from the claim): with the single candidate `c0`, a stake pool of size
3 and the accumulator 3 (under all three readings), the hash of the only block starts with `572ff09f777e4dbc`. The number
of its first 8 characters and the number of its first 16 characters both give the index 2,
that of the attacker `cc`, so the condition for success on the first ordering holds; the code
tests the number `0x777e4dbc` of the characters 9 to 16, which gives the index 0: for the
attacker `cc` the search falls back after the one ordering, and for the attacker `aa`, whose
index the condition does not give, it reports success. The one ordering tested and the block
are `c0` in both runs. -/
theorem grind_single_candidate_rejects_match :
    candidates singleInput = ["c0"] ∧
    singleInput.stakepool.length = 3 ∧ singleInput.stakepool.indexOf "cc" = 2 ∧
    singleInput.stakepool.indexOf "aa" = 0 ∧
    (singleInput.oldStakepool.map (fun a => specHexPrefix 8 a % 3)).sum = 3 ∧
    (singleInput.oldStakepool.map (fun a => specHexPrefix 16 a % 3)).sum = 3 ∧
    (getBlockHash (getBlockHash "00" ["t0"]) ["c0"]).data.take 16 = "572ff09f777e4dbc".data ∧
    specHexPrefix 8 (getBlockHash (getBlockHash "00" ["t0"]) ["c0"]) = 0x572ff09f ∧
    specHexPrefix 16 (getBlockHash (getBlockHash "00" ["t0"]) ["c0"]) = 0x572ff09f777e4dbc ∧
    (3 + 0x572ff09f % 3) % 3 = 2 ∧ (3 + 0x572ff09f777e4dbc % 3) % 3 = 2 ∧
    hexPrefix (getBlockHash (getBlockHash "00" ["t0"]) ["c0"]) = 0x777e4dbc ∧
    (3 + 0x777e4dbc % 3) % 3 = 0 ∧
    (grind exampleFleet "cc" singleInput).map
        (fun r => (r.creator, r.successfulGrind, r.tested, r.txids)) =
      some (3, false, [["c0"]], ["c0"]) ∧
    (grind exampleFleet "aa" singleInput).map
        (fun r => (r.creator, r.successfulGrind, r.tested, r.txids)) =
      some (3, true, [["c0"]], ["c0"]) := by
  obtain ⟨h1, h2, h3⟩ := prefix_values singleInput_hash
  refine ⟨by decide, by decide, by decide, by decide, by decide!, by decide!, singleInput_hash,
    ?_, ?_, by decide, by decide, ?_, by decide, singleInput_grind_cc, singleInput_grind_aa⟩
  · rw [h2]; decide!
  · rw [h3]; decide!
  · rw [h1]; decide!

/-- C16 (the code departs from the claim): the number is read from the first 16 characters,
not the first 8. The addresses `0000000000000001` and `0000000000000002` agree on their first
8 characters, whose value is 0, but the numbers derived are 1 and 2, and so are the indices
modulo a stake pool of size 3 and the accumulators `grind` computes from them. The number
does fit 32 bits. -/
theorem hexPrefix_reads_sixteen_characters :
    "0000000000000001".data.take 8 = "0000000000000002".data.take 8 ∧
    sscanfHex ("0000000000000001".data.take 8) = some 0 ∧
    hexPrefix "0000000000000001" = 1 ∧ hexPrefix "0000000000000002" = 2 ∧
    hexPrefix "0000000000000001" % 3 ≠ hexPrefix "0000000000000002" % 3 ∧
    (creatorLoop 3 ["0000000000000001"] (0, 0)).1 = 1 ∧
    (creatorLoop 3 ["0000000000000002"] (0, 0)).1 = 2 ∧
    hexPrefix "0000000000000001" < 2 ^ 32 ∧ hexPrefix "0000000000000002" < 2 ^ 32 :=
  ⟨by decide!, by decide!, by decide!, by decide!, by decide!, by decide!, by decide!,
    hexPrefix_lt _, hexPrefix_lt _⟩

end DriverClaims

end GrindingAttack
